import Mathlib

/-!
# Verification of the vaultic-web encrypted vault core

Shallow embedding of `src/lib/crypto.ts` and `src/lib/db.ts`.

The browser's WebCrypto primitives (PBKDF2 key derivation, AES-GCM
authenticated encryption, `crypto.getRandomValues`) are platform code,
not repository code.  They are modelled symbolically, in the standard
ideal-cipher style:

* a PBKDF2-derived AES key is an opaque value fully determined by the
  `(password, salt)` pair that produced it (PBKDF2 is deterministic;
  collisions between distinct passwords are cryptographically
  negligible and are idealised away);
* an AES-GCM ciphertext is an opaque value remembering the key, the IV
  and the plaintext that produced it; authenticated decryption succeeds
  exactly when it is attempted with the same key and IV, and then
  returns the original plaintext (the GCM tag check is idealised as
  exact);
* randomness (`crypto.getRandomValues`) is threaded as explicit
  parameters: every operation in the source that mints fresh salts or
  IVs takes them as arguments here.

Base64 (`btoa`/`atob` in `db.ts`) is a bijection between byte buffers
and the text stored in IndexedDB; stored ciphertext fields are therefore
modelled directly as `EncryptedBlob` values rather than as base64 text.

IndexedDB object stores are modelled as Lean lists of records together
with the store invariant that the primary keys (`id`, the keyPath) are
pairwise distinct; `put` replaces the record with the matching key in
place (or appends), `add` fails on a key collision (ConstraintError),
`delete` removes the matching record and succeeds even when the key is
absent.  Multi-record transactions are modelled as pure functions
returning either the complete post-state or an error, which captures
their all-or-nothing semantics.  JavaScript exceptions are modelled as
`Except String` with the exact message strings thrown by the source.
-/

namespace Vaultic

/- ---------------------------------------------------------------- -/
/- Symbolic model of crypto.ts                                       -/
/- ---------------------------------------------------------------- -/

/-- A PBKDF2-derived AES-GCM key (`deriveKey` in crypto.ts).  PBKDF2 is
deterministic, so the key is fully determined by `(password, salt)`;
distinct passwords are idealised to give distinct keys. -/
structure DerivedKey where
  password : String
  salt : Nat
  deriving DecidableEq, Repr

/-- An AES-GCM ciphertext-with-tag, symbolic: it remembers the key, the
IV and the plaintext used by `crypto.subtle.encrypt`. -/
structure GCMCiphertext where
  key : DerivedKey
  iv : Nat
  plaintext : String
  deriving DecidableEq, Repr

/-- The blob produced by `encryptData`: `salt || iv || ciphertext`
concatenated into one buffer.  The fixed-width split of crypto.ts
(16-byte salt, 12-byte IV, rest ciphertext) is modelled by the three
fields of this structure. -/
structure EncryptedBlob where
  salt : Nat
  iv : Nat
  ct : GCMCiphertext
  deriving DecidableEq, Repr

/-- `deriveKey(password, salt)` from crypto.ts (PBKDF2, modelled as the
opaque pair). -/
def deriveKey (password : String) (salt : Nat) : DerivedKey :=
  { password := password, salt := salt }

/-- `encryptData(plaintext, password)` from crypto.ts.  The random salt
and IV minted by `crypto.getRandomValues` are explicit arguments. -/
def encryptData (plaintext password : String) (salt iv : Nat) : EncryptedBlob :=
  let key := deriveKey password salt
  { salt := salt, iv := iv, ct := { key := key, iv := iv, plaintext := plaintext } }

/-- `crypto.subtle.decrypt` for AES-GCM, symbolic: authentication
succeeds exactly when key and IV match the ones used at encryption. -/
def gcmDecrypt (key : DerivedKey) (iv : Nat) (ct : GCMCiphertext) : Option String :=
  if ct.key = key ∧ ct.iv = iv then some ct.plaintext else none

/-- `decryptData(encryptedBuffer, password)` from crypto.ts: split the
blob, re-derive the key from the embedded salt, authenticate-then-
decrypt; throw on authentication failure. -/
def decryptData (blob : EncryptedBlob) (password : String) : Except String String :=
  let key := deriveKey password blob.salt
  match gcmDecrypt key blob.iv blob.ct with
  | some pt => .ok pt
  | none => .error "Decryption failed: invalid password or corrupted data."

/- ---------------------------------------------------------------- -/
/- C1: encrypt/decrypt round-trip                                    -/
/- ---------------------------------------------------------------- -/

/-- C1: for every plaintext string `p`, password `pw` (and every choice
of random salt and IV), `decryptData (encryptData p pw) pw` returns `p`:
encrypt followed by decrypt with the same password round-trips. -/
theorem decryptData_encryptData (p pw : String) (salt iv : Nat) :
    decryptData (encryptData p pw salt iv) pw = .ok p := by
  simp [decryptData, encryptData, gcmDecrypt, deriveKey]

/-- Decrypting with a different password fails (helper, used below):
the re-derived key differs from the encryption key. -/
theorem decryptData_wrong_password (p pw pw' : String) (salt iv : Nat)
    (h : pw' ≠ pw) :
    decryptData (encryptData p pw salt iv) pw' =
      .error "Decryption failed: invalid password or corrupted data." := by
  simp [decryptData, encryptData, gcmDecrypt, deriveKey, Ne.symm h]

/- ---------------------------------------------------------------- -/
/- Dynamic JSON values and validateDecryptedData                     -/
/- ---------------------------------------------------------------- -/

/-- A dynamic JavaScript/JSON value, as seen by the runtime shape
checks of `validateDecryptedData`.  `jnull` stands for both `null` and
`undefined`: the two are indistinguishable to every check the source
performs (falsy, not an array, not of type string). -/
inductive JValue where
  | jnull : JValue
  | jbool : Bool → JValue
  | jnum : Int → JValue
  | jstr : String → JValue
  | jarr : List JValue → JValue
  | jobj : List (String × JValue) → JValue

namespace JValue

/-- Property access `v.k`: field lookup on an object, `undefined`
(here `jnull`) on everything else or a missing field. -/
def get (v : JValue) (k : String) : JValue :=
  match v with
  | jobj fields =>
    match fields.find? (fun f => f.1 == k) with
    | some f => f.2
    | none => jnull
  | _ => jnull

/-- JavaScript truthiness. -/
def truthy : JValue → Bool
  | jnull => false
  | jbool b => b
  | jnum n => n != 0
  | jstr s => s != ""
  | jarr _ => true
  | jobj _ => true

/-- `typeof v === "object"` (true for objects, arrays and `null`;
`jnull` also covers `undefined`, but every use below is guarded by a
truthiness check that has already excluded it). -/
def typeofObject : JValue → Bool
  | jnull => true
  | jarr _ => true
  | jobj _ => true
  | _ => false

/-- `Array.isArray(v)`. -/
def isArray : JValue → Bool
  | jarr _ => true
  | _ => false

/-- The elements of an array value (`[]` on non-arrays; every use below
is guarded by `isArray`). -/
def elems : JValue → List JValue
  | jarr xs => xs
  | _ => []

/-- `typeof v === "string"`. -/
def typeofString : JValue → Bool
  | jstr _ => true
  | _ => false

end JValue

/-- `validateDecryptedData(payload)` — the first variant in
crypto.ts (lines 101-122): requires the three collection fields to be
arrays and each authenticator's `id`, `name`, `secret` to be of type
string (`typeof auth.id === "string"`, which accepts the empty
string). -/
def validateDecryptedData (payload : JValue) : Bool :=
  if !payload.truthy || !payload.typeofObject
      || !(payload.get "authenticators").isArray
      || !(payload.get "groups").isArray
      || !(payload.get "emails").isArray then
    false
  else
    (payload.get "authenticators").elems.all fun auth =>
      (auth.get "id").typeofString
        && (auth.get "name").typeofString
        && (auth.get "secret").typeofString

/-- `validateDecryptedData(data)` — the second variant in crypto.ts
(lines 238-261): same array checks, but each authenticator's fields are
checked for truthiness (`if (!auth.id || !auth.name || !auth.secret)
return false`), which rejects empty strings. -/
def validateDecryptedData2 (payload : JValue) : Bool :=
  if !payload.truthy || !payload.typeofObject then false
  else if !(payload.get "authenticators").isArray then false
  else if !(payload.get "groups").isArray then false
  else if !(payload.get "emails").isArray then false
  else
    (payload.get "authenticators").elems.all fun auth =>
      (auth.get "id").truthy && (auth.get "name").truthy
        && (auth.get "secret").truthy

/- ---------------------------------------------------------------- -/
/- Data model of db.ts                                               -/
/- ---------------------------------------------------------------- -/

/-- A stored `Authenticator` record (db.ts interface).  `secret` and
`email` hold ciphertext: in the source they are base64 renderings of
`encryptData` output, modelled here directly as `EncryptedBlob` (base64
being a bijection). -/
structure Authenticator where
  id : String
  name : String
  email : Option EncryptedBlob
  secret : EncryptedBlob
  groupId : Option String
  order : Nat
  createdAt : Nat
  updatedAt : Nat
  deriving DecidableEq, Repr

/-- An `Authenticator` with plaintext sensitive fields, as it appears
in an export payload or an imported (decrypted) payload. -/
structure PlainAuthenticator where
  id : String
  name : String
  email : Option String
  secret : String
  groupId : Option String
  order : Nat
  createdAt : Nat
  updatedAt : Nat
  deriving DecidableEq, Repr

/-- A `Group` record (db.ts interface); no encrypted fields. -/
structure Group where
  id : String
  name : String
  color : String
  order : Nat
  createdAt : Nat
  updatedAt : Nat
  deriving DecidableEq, Repr

/-- A stored `Email` record; `address` holds ciphertext. -/
structure Email where
  id : String
  address : EncryptedBlob
  createdAt : Nat
  deriving DecidableEq, Repr

/-- An `Email` record with plaintext address (export/import payloads). -/
structure PlainEmail where
  id : String
  address : String
  createdAt : Nat
  deriving DecidableEq, Repr

/-- A PBKDF2-SHA-256 verifier hash (`crypto.subtle.deriveBits` in
`setMasterKey`/`verifyMasterKey`), opaque and fully determined by
`(password, salt)`, with negligible collisions idealised away. -/
structure PBKDF2Hash where
  password : String
  salt : Nat
  deriving DecidableEq, Repr

/-- The singleton record of the `masterKey` store:
`{id: "master", salt, hash, initialized}`. -/
structure MasterKeyRecord where
  id : String
  salt : Nat
  hash : PBKDF2Hash
  initialized : Bool
  deriving DecidableEq, Repr

/-- The IndexedDB database `vaultic-db`: its four object stores.  Each
list carries the store invariant (stated as a hypothesis where needed)
that `id` keys are pairwise distinct; the `masterKey` store only ever
holds the key `"master"`, modelled as an `Option`. -/
structure VaultState where
  authenticators : List Authenticator
  groups : List Group
  emails : List Email
  masterKey : Option MasterKeyRecord
  deriving DecidableEq, Repr

/- ---------------------------------------------------------------- -/
/- IndexedDB object-store primitives                                 -/
/- ---------------------------------------------------------------- -/

/-- IndexedDB `put` on a store with keyPath `key`: replace the record
with the same key in place, or append when the key is new. -/
def putBy {α : Type} (key : α → String) (xs : List α) (a : α) : List α :=
  if xs.any (fun b => key b == key a) then
    xs.map (fun b => if key b == key a then a else b)
  else
    xs ++ [a]

/-- IndexedDB `add`: like `put` but fails with a ConstraintError when
the key is already present, aborting the enclosing transaction. -/
def addBy {α : Type} (key : α → String) (xs : List α) (a : α) :
    Except String (List α) :=
  if xs.any (fun b => key b == key a) then
    .error "ConstraintError"
  else
    .ok (xs ++ [a])

/-- IndexedDB `delete`: removes the record with the given key; succeeds
(as a no-op) when the key is absent. -/
def deleteBy {α : Type} (key : α → String) (xs : List α) (k : String) : List α :=
  xs.filter (fun b => !(key b == k))

/-- IndexedDB `get`: the record with the given key, if present. -/
def getBy {α : Type} (key : α → String) (xs : List α) (k : String) : Option α :=
  xs.find? (fun b => key b == k)

/-- `getAllFromIndex("authenticators", "by-order")`: all records,
sorted ascending by the `by-order` index (the sorting algorithm is
immaterial; a stable structural sort stands in for the index scan). -/
def getAllAuthenticators (st : VaultState) : List Authenticator :=
  st.authenticators.insertionSort (fun a b => a.order ≤ b.order)

/-- `getAllFromIndex("groups", "by-order")`. -/
def getAllGroups (st : VaultState) : List Group :=
  st.groups.insertionSort (fun a b => a.order ≤ b.order)

/-- `getAll("emails")` (primary-key order; the model keeps store
order). -/
def getAllEmails (st : VaultState) : List Email :=
  st.emails

/- ---------------------------------------------------------------- -/
/- db.ts operations                                                  -/
/- ---------------------------------------------------------------- -/

/-- The partial-update argument of `updateAuthenticator`
(`Partial<Omit<Authenticator, "id" | "createdAt">>`): each field is
present (`some`) or absent (`none`). -/
structure AuthenticatorUpdates where
  name : Option String := none
  email : Option (Option EncryptedBlob) := none
  secret : Option EncryptedBlob := none
  groupId : Option (Option String) := none
  order : Option Nat := none
  updatedAt : Option Nat := none
  deriving DecidableEq, Repr

/-- The object spread `{...existing, ...updates, updatedAt: Date.now()}`
of `updateAuthenticator`; `now` is `Date.now()`. -/
def applyUpdates (existing : Authenticator) (u : AuthenticatorUpdates)
    (now : Nat) : Authenticator :=
  { existing with
    name := u.name.getD existing.name
    email := u.email.getD existing.email
    secret := u.secret.getD existing.secret
    groupId := u.groupId.getD existing.groupId
    order := u.order.getD existing.order
    updatedAt := now }

/-- `updateAuthenticator(id, updates)` from db.ts: get the record, throw
`Authenticator with id ... not found` when absent, otherwise put back
the merged record with refreshed `updatedAt`. -/
def updateAuthenticator (id : String) (updates : AuthenticatorUpdates)
    (now : Nat) (st : VaultState) : Except String VaultState :=
  match getBy (fun a => a.id) st.authenticators id with
  | none => .error ("Authenticator with id " ++ id ++ " not found")
  | some existing =>
    .ok { st with
          authenticators :=
            putBy (fun a => a.id) st.authenticators
              (applyUpdates existing updates now) }

/-- `deleteAuthenticator(id)` from db.ts: a bare IndexedDB `delete`,
which succeeds (as a no-op) when the id is absent; the source never
checks existence and never throws. -/
def deleteAuthenticator (id : String) (st : VaultState) :
    Except String VaultState :=
  .ok { st with
        authenticators := deleteBy (fun a => a.id) st.authenticators id }

/-- The body of the `for` loop of `reorderAuthenticators`, processing
the remaining ids with `i` the index of the first of them: get each id,
and when found, put it back with `order := i`; ids absent from the
store are silently skipped. -/
def reorderLoop (auths : List Authenticator) (ids : List String)
    (i : Nat) : List Authenticator :=
  match ids with
  | [] => auths
  | id :: rest =>
    let auths' :=
      match getBy (fun a => a.id) auths id with
      | some a => putBy (fun b => b.id) auths { a with order := i }
      | none => auths
    reorderLoop auths' rest (i + 1)

/-- `reorderAuthenticators(orderedIds)` from db.ts: one readwrite
transaction running the loop from index 0. -/
def reorderAuthenticators (orderedIds : List String)
    (st : VaultState) : VaultState :=
  { st with authenticators := reorderLoop st.authenticators orderedIds 0 }

/-- `deleteGroup(id)` from db.ts: in one transaction over
`authenticators` and `groups`, fetch the members via the `by-group`
index, put each back with `groupId` cleared, then delete the group. -/
def deleteGroup (id : String) (st : VaultState) : VaultState :=
  let members := st.authenticators.filter (fun a => a.groupId == some id)
  let auths' := members.foldl
    (fun acc a => putBy (fun b => b.id) acc { a with groupId := none }) st.authenticators
  { st with
    authenticators := auths'
    groups := deleteBy (fun g => g.id) st.groups id }

/-- The export payload serialized by `exportData` (`JSON.stringify` of
this object; serialization is modelled as the structured object
itself). -/
structure ExportPayload where
  authenticators : List PlainAuthenticator
  groups : List Group
  emails : List Email
  exportDate : Nat
  deriving DecidableEq, Repr

/-- Decrypt one stored authenticator for export
(`decodeEncryptedString` on `secret` and, when present, `email`). -/
def decryptAuthenticator (password : String) (a : Authenticator) :
    Except String PlainAuthenticator := do
  let secret ← decryptData a.secret password
  let email ← match a.email with
    | none => pure none
    | some e => do
        let pt ← decryptData e password
        pure (some pt)
  pure { id := a.id, name := a.name, email := email, secret := secret,
         groupId := a.groupId, order := a.order,
         createdAt := a.createdAt, updatedAt := a.updatedAt }

/-- `exportData(password)` from db.ts: gather all collections, decrypt
every authenticator's sensitive fields, and serialize
`{authenticators, groups, emails, exportDate: Date.now()}`.  (The
source exports `emails` as stored, without decrypting `address`; see
the C7 analysis.)  A decryption failure rejects the whole export. -/
def exportData (password : String) (now : Nat) (st : VaultState) :
    Except String ExportPayload := do
  let decryptedAuthenticators ←
    (getAllAuthenticators st).mapM (decryptAuthenticator password)
  pure { authenticators := decryptedAuthenticators
         groups := getAllGroups st
         emails := getAllEmails st
         exportDate := now }

/-- A fresh `(salt, iv)` pair minted by `crypto.getRandomValues` for one
`encryptData` call. -/
structure Rand where
  salt : Nat
  iv : Nat
  deriving DecidableEq, Repr

/-- The decrypted payload handed to `mergeImportedData` (the
validated, imported file contents): plaintext sensitive fields. -/
structure ImportedPayload where
  authenticators : List PlainAuthenticator
  groups : List Group
  emails : List PlainEmail
  deriving DecidableEq, Repr

/-- Re-encrypt one imported authenticator with the current session
password (`encodeEncryptedString` on `secret` and optional `email`). -/
def encryptPlainAuthenticator (password : String) (r : Rand × Rand)
    (p : PlainAuthenticator) : Authenticator :=
  { id := p.id, name := p.name
    email := p.email.map (fun e => encryptData e password r.2.salt r.2.iv)
    secret := encryptData p.secret password r.1.salt r.1.iv
    groupId := p.groupId, order := p.order
    createdAt := p.createdAt, updatedAt := p.updatedAt }

/-- The authenticator loop of `mergeImportedData`: skip ids that were
present in the `getAllKeys` snapshot, `add` the rest (re-encrypted);
`add` aborts the transaction on a key collision, which can only arise
from duplicate ids inside the payload itself. -/
def mergeAuthLoop (password : String) (rnd : Nat → Rand × Rand)
    (existingIds : List String) (i : Nat) (store : List Authenticator) :
    List PlainAuthenticator → Except String (List Authenticator)
  | [] => .ok store
  | p :: rest =>
    if existingIds.contains p.id then
      mergeAuthLoop password rnd existingIds (i + 1) store rest
    else
      match addBy (fun a => a.id) store (encryptPlainAuthenticator password (rnd i) p) with
      | .error e => .error e
      | .ok store' => mergeAuthLoop password rnd existingIds (i + 1) store' rest

/-- The group loop of `mergeImportedData` (groups are stored as-is). -/
def mergeGroupLoop (existingIds : List String) (store : List Group) :
    List Group → Except String (List Group)
  | [] => .ok store
  | g :: rest =>
    if existingIds.contains g.id then
      mergeGroupLoop existingIds store rest
    else
      match addBy (fun x => x.id) store g with
      | .error e => .error e
      | .ok store' => mergeGroupLoop existingIds store' rest

/-- The email loop of `mergeImportedData` (re-encrypts `address`). -/
def mergeEmailLoop (password : String) (rnd : Nat → Rand)
    (existingIds : List String) (i : Nat) (store : List Email) :
    List PlainEmail → Except String (List Email)
  | [] => .ok store
  | e :: rest =>
    if existingIds.contains e.id then
      mergeEmailLoop password rnd existingIds (i + 1) store rest
    else
      match addBy (fun x => x.id) store
          { id := e.id
            address := encryptData e.address password (rnd i).salt (rnd i).iv
            createdAt := e.createdAt } with
      | .error err => .error err
      | .ok store' => mergeEmailLoop password rnd existingIds (i + 1) store' rest

/-- `mergeImportedData(password, importedData)` from db.ts: snapshot
the existing keys of each collection, then insert exactly the incoming
records whose id is not in the snapshot, re-encrypting sensitive fields
with the current session password.  The source opens one transaction
per collection and processes them in the order authenticators, groups,
emails; a failure rejects the whole call (and, since the authenticator
collection is processed first, a duplicate-id failure there occurs
before any group or email write). -/
def mergeImportedData (password : String) (authRnd : Nat → Rand × Rand)
    (emailRnd : Nat → Rand) (importedData : ImportedPayload)
    (st : VaultState) : Except String VaultState := do
  let auths' ← mergeAuthLoop password authRnd
    (st.authenticators.map (fun a => a.id)) 0 st.authenticators
    importedData.authenticators
  let groups' ← mergeGroupLoop (st.groups.map (fun g => g.id)) st.groups
    importedData.groups
  let emails' ← mergeEmailLoop password emailRnd
    (st.emails.map (fun e => e.id)) 0 st.emails importedData.emails
  pure { st with authenticators := auths', groups := groups', emails := emails' }

/- ---------------------------------------------------------------- -/
/- Master key management                                             -/
/- ---------------------------------------------------------------- -/

/-- `crypto.subtle.deriveBits` with PBKDF2-SHA-256 over
`(password, salt)`, the verifier probe of `setMasterKey` /
`verifyMasterKey` (opaque, deterministic, collisions idealised away). -/
def deriveBits (password : String) (salt : Nat) : PBKDF2Hash :=
  { password := password, salt := salt }

/-- `constantTimeEqual(a, b)` from db.ts: length check plus OR-accumulated
XOR over the bytes, i.e. exact equality of the two byte strings. -/
def constantTimeEqual (a b : PBKDF2Hash) : Bool :=
  a == b

/-- `isMasterKeySet()` from db.ts: `!!master?.initialized`. -/
def isMasterKeySet (st : VaultState) : Bool :=
  match st.masterKey with
  | some master => master.initialized
  | none => false

/-- `setMasterKey(password)` from db.ts: mint a fresh random salt
(explicit argument here), derive the verifier hash, and put the
singleton MasterKeyRecord. -/
def setMasterKey (password : String) (salt : Nat) (st : VaultState) :
    VaultState :=
  { st with
    masterKey := some { id := "master", salt := salt,
                        hash := deriveBits password salt,
                        initialized := true } }

/-- `verifyMasterKey(password)` from db.ts: `false` when no
MasterKeyRecord exists, otherwise recompute the probe with the stored
salt and compare in constant time.  A pure (read-only, non-throwing)
function of the state. -/
def verifyMasterKey (password : String) (st : VaultState) : Bool :=
  match st.masterKey with
  | none => false
  | some master =>
    constantTimeEqual master.hash (deriveBits password master.salt)

/-- The re-encryption loop of `changeMasterKey` over the
authenticators: decrypt `secret` (and optional `email`) with the old
password — any failure rejects the whole rotation — and re-encrypt with
the new password under fresh randomness. -/
def reencryptAuthLoop (oldPassword newPassword : String)
    (rnd : Nat → Rand × Rand) (i : Nat) :
    List Authenticator → Except String (List Authenticator)
  | [] => .ok []
  | a :: rest => do
    let decryptedSecret ← decryptData a.secret oldPassword
    let newSecret :=
      encryptData decryptedSecret newPassword (rnd i).1.salt (rnd i).1.iv
    let newEmail ← match a.email with
      | none => pure none
      | some e => do
        let decryptedEmail ← decryptData e oldPassword
        pure (some (encryptData decryptedEmail newPassword
          (rnd i).2.salt (rnd i).2.iv))
    let tail ← reencryptAuthLoop oldPassword newPassword rnd (i + 1) rest
    pure ({ a with secret := newSecret, email := newEmail } :: tail)

/-- The re-encryption loop of `changeMasterKey` over the emails. -/
def reencryptEmailLoop (oldPassword newPassword : String)
    (rnd : Nat → Rand) (i : Nat) :
    List Email → Except String (List Email)
  | [] => .ok []
  | e :: rest => do
    let decryptedAddress ← decryptData e.address oldPassword
    let tail ← reencryptEmailLoop oldPassword newPassword rnd (i + 1) rest
    pure ({ e with
            address := encryptData decryptedAddress newPassword
              (rnd i).salt (rnd i).iv } :: tail)

/-- `changeMasterKey(oldPassword, newPassword)` from db.ts: verify the
old password (throwing `Current password is incorrect` otherwise),
decrypt and re-encrypt every authenticator secret/email and every email
address, then in one readwrite transaction put back all re-encrypted
records and the new MasterKeyRecord.  A decryption failure anywhere
rejects the call before the transaction opens, leaving the state
untouched. -/
def changeMasterKey (oldPassword newPassword : String)
    (authRnd : Nat → Rand × Rand) (emailRnd : Nat → Rand)
    (masterSalt : Nat) (st : VaultState) : Except String VaultState :=
  if !(verifyMasterKey oldPassword st) then
    .error "Current password is incorrect"
  else do
    let reencryptedAuths ←
      reencryptAuthLoop oldPassword newPassword authRnd 0
        (getAllAuthenticators st)
    let reencryptedEmails ←
      reencryptEmailLoop oldPassword newPassword emailRnd 0
        (getAllEmails st)
    let auths' := reencryptedAuths.foldl (putBy (fun a => a.id)) st.authenticators
    let emails' := reencryptedEmails.foldl (putBy (fun e => e.id)) st.emails
    pure { st with
           authenticators := auths'
           emails := emails'
           masterKey := some { id := "master", salt := masterSalt,
                               hash := deriveBits newPassword masterSalt,
                               initialized := true } }

/- ---------------------------------------------------------------- -/
/- Store lemmas                                                      -/
/- ---------------------------------------------------------------- -/

section StoreLemmas

variable {α β : Type} (key : α → String)

theorem putBy_self_mem (xs : List α) (a : α) : a ∈ putBy key xs a := by
  unfold putBy
  by_cases h : xs.any (fun b => key b == key a)
  · simp only [h, if_true]
    obtain ⟨b, hb, hkb⟩ := List.any_eq_true.mp h
    exact List.mem_map.mpr ⟨b, hb, by simp [hkb]⟩
  · simp [h]

theorem putBy_mem_of_key_ne (xs : List α) (a x : α) (hx : x ∈ xs)
    (hne : key x ≠ key a) : x ∈ putBy key xs a := by
  unfold putBy
  by_cases h : xs.any (fun b => key b == key a)
  · simp only [h, if_true]
    exact List.mem_map.mpr ⟨x, hx, by simp [hne]⟩
  · simp only [h, if_false]
    exact List.mem_append_left _ hx

theorem putBy_map_key (xs : List α) (a : α) (h : key a ∈ xs.map key) :
    (putBy key xs a).map key = xs.map key := by
  obtain ⟨b, hb, hkb⟩ := List.mem_map.mp h
  have hany : xs.any (fun b => key b == key a) = true :=
    List.any_eq_true.mpr ⟨b, hb, by simp [hkb]⟩
  unfold putBy
  simp only [hany, if_true, List.map_map]
  refine List.map_congr_left (fun c hc => ?_)
  by_cases hck : key c == key a
  · simp only [Function.comp, hck, if_true]
    exact (eq_of_beq hck).symm
  · simp [Function.comp, hck]

theorem getBy_eq_some_self (xs : List α) (x : α)
    (hnd : (xs.map key).Nodup) (hx : x ∈ xs) :
    getBy key xs (key x) = some x := by
  induction xs with
  | nil => cases hx
  | cons b rest ih =>
    simp only [List.map_cons, List.nodup_cons] at hnd
    rcases List.mem_cons.mp hx with rfl | hxr
    · simp [getBy, List.find?]
    · have hne : key b ≠ key x := by
        intro he
        exact hnd.1 (he ▸ List.mem_map_of_mem key hxr)
      simpa [getBy, List.find?_cons, hne] using ih hnd.2 hxr

theorem getBy_eq_none (xs : List α) (k : String) (h : k ∉ xs.map key) :
    getBy key xs k = none := by
  refine List.find?_eq_none.mpr (fun b hb => ?_)
  simp only [beq_iff_eq]
  intro he
  exact h (he ▸ List.mem_map_of_mem key hb)

theorem key_unique (xs : List α) (a b : α) (hnd : (xs.map key).Nodup)
    (ha : a ∈ xs) (hb : b ∈ xs) (hk : key a = key b) : a = b := by
  induction xs with
  | nil => cases ha
  | cons c rest ih =>
    simp only [List.map_cons, List.nodup_cons] at hnd
    rcases List.mem_cons.mp ha with rfl | har
    · rcases List.mem_cons.mp hb with rfl | hbr
      · rfl
      · exact absurd (hk ▸ List.mem_map_of_mem key hbr) hnd.1
    · rcases List.mem_cons.mp hb with rfl | hbr
      · exact absurd (hk ▸ List.mem_map_of_mem key har) hnd.1
      · exact ih hnd.2 har hbr

theorem foldl_putBy_eq (zs xs : List α) (hnd : (xs.map key).Nodup)
    (hzs : (zs.map key).Nodup) (hsub : ∀ z ∈ zs, key z ∈ xs.map key) :
    List.foldl (putBy key) xs zs =
      xs.map (fun x => ((zs.find? (fun z => key z == key x)).getD x)) := by
  induction zs generalizing xs with
  | nil => simp
  | cons z rest ih =>
    have hz : key z ∈ xs.map key := hsub z (List.mem_cons_self z rest)
    obtain ⟨b, hb, hkb⟩ := List.mem_map.mp hz
    have hany : xs.any (fun c => key c == key z) = true :=
      List.any_eq_true.mpr ⟨b, hb, by simp [hkb]⟩
    simp only [List.map_cons, List.nodup_cons] at hzs
    have hmap : (putBy key xs z).map key = xs.map key := putBy_map_key key xs z hz
    have hstep : List.foldl (putBy key) xs (z :: rest) =
        List.foldl (putBy key) (putBy key xs z) rest := rfl
    rw [hstep, ih (putBy key xs z) (hmap ▸ hnd) hzs.2
      (fun w hw => hmap ▸ hsub w (List.mem_cons_of_mem z hw))]
    unfold putBy
    simp only [hany, if_true, List.map_map]
    refine List.map_congr_left (fun c hc => ?_)
    by_cases hck : key c = key z
    · have hbeq : (key c == key z) = true := beq_iff_eq.mpr hck
      simp only [Function.comp, hbeq, if_true, List.find?_cons]
      have hzz : (key z == key c) = true := beq_iff_eq.mpr hck.symm
      have hrest : rest.find? (fun w => key w == key z) = none := by
        refine List.find?_eq_none.mpr (fun w hw => ?_)
        simp only [beq_iff_eq]
        intro he
        exact hzs.1 (he ▸ List.mem_map_of_mem key hw)
      have hrest' : rest.find? (fun w => key w == key c) = none := by
        rw [← hck] at hrest
        simpa [hck] using hrest
      simp [hrest, hrest', hzz]
    · have hbeq : (key c == key z) = false := beq_eq_false_iff_ne.mpr hck
      have hzz : (key z == key c) = false :=
        beq_eq_false_iff_ne.mpr (fun he => hck he.symm)
      simp [Function.comp, hbeq, List.find?_cons, hzz]

theorem forall₂_mem_right {R : α → β → Prop} {l : List α} {zs : List β}
    (h : List.Forall₂ R l zs) {z : β} (hz : z ∈ zs) : ∃ a ∈ l, R a z := by
  induction h with
  | nil => cases hz
  | cons hr _ ih =>
    rcases List.mem_cons.mp hz with rfl | hz'
    · exact ⟨_, List.mem_cons_self _ _, hr⟩
    · obtain ⟨a, ha, har⟩ := ih hz'
      exact ⟨a, List.mem_cons_of_mem _ ha, har⟩

theorem forall₂_map_key {R : α → β → Prop} {l : List α} {zs : List β}
    (f : α → String) (g : β → String) (h : List.Forall₂ R l zs)
    (hk : ∀ a b, R a b → f a = g b) : zs.map g = l.map f := by
  induction h with
  | nil => rfl
  | cons hr _ ih => simp [ih, hk _ _ hr]

end StoreLemmas

/- ---------------------------------------------------------------- -/
/- Concrete fixtures for witnesses and counterexamples               -/
/- ---------------------------------------------------------------- -/

/-- The freshly-created database: all four stores empty. -/
def emptyVault : VaultState :=
  { authenticators := [], groups := [], emails := [], masterKey := none }

/- ---------------------------------------------------------------- -/
/- C10: verifyMasterKey on an uninitialized vault                    -/
/- ---------------------------------------------------------------- -/

/-- C10: for every password `pw`, if no MasterKeyRecord exists (the
vault is uninitialized), `verifyMasterKey pw` returns `false` rather
than throwing (the embedding is a total, read-only function of the
state, so the store is left unchanged). -/
theorem verifyMasterKey_uninitialized (pw : String) (st : VaultState)
    (h : st.masterKey = none) : verifyMasterKey pw st = false := by
  simp [verifyMasterKey, h]

/-- Witness for C10 at the empty vault. -/
theorem verifyMasterKey_uninitialized_witness :
    emptyVault.masterKey = none ∧ verifyMasterKey "pw" emptyVault = false :=
  ⟨rfl, verifyMasterKey_uninitialized "pw" emptyVault rfl⟩

/- ---------------------------------------------------------------- -/
/- C3: verifier correctness                                          -/
/- ---------------------------------------------------------------- -/

/-- C3: immediately after `setMasterKey pw`, `verifyMasterKey pw`
returns `true`, and `verifyMasterKey pw'` returns `false` for every
`pw' ≠ pw` (distinct passwords yield distinct PBKDF2 probes in the
symbolic model). -/
theorem verifyMasterKey_after_setMasterKey (pw pw' : String) (salt : Nat)
    (st : VaultState) (h : pw' ≠ pw) :
    verifyMasterKey pw (setMasterKey pw salt st) = true ∧
    verifyMasterKey pw' (setMasterKey pw salt st) = false := by
  constructor
  · simp [verifyMasterKey, setMasterKey, constantTimeEqual, deriveBits]
  · simp [verifyMasterKey, setMasterKey, constantTimeEqual, deriveBits,
      PBKDF2Hash.mk.injEq, Ne.symm h]

/-- Witness for C3 with `pw = "a"`, `pw' = "b"` on the empty vault. -/
theorem verifyMasterKey_after_setMasterKey_witness :
    ("b" : String) ≠ "a" ∧
    (verifyMasterKey "a" (setMasterKey "a" 0 emptyVault) = true ∧
     verifyMasterKey "b" (setMasterKey "a" 0 emptyVault) = false) :=
  ⟨by decide, verifyMasterKey_after_setMasterKey "a" "b" 0 emptyVault (by decide)⟩

/- ---------------------------------------------------------------- -/
/- C8: update/delete on an absent id                                 -/
/- ---------------------------------------------------------------- -/

/-- C8 counterexample: the claim says `deleteAuthenticator` on an
absent id fails with a NotFoundError, but the source is a bare
IndexedDB `delete`, which succeeds as a no-op: on the empty store it
returns normally with the store unchanged, not an error. -/
theorem deleteAuthenticator_absent_succeeds :
    deleteAuthenticator "missing" emptyVault = .ok emptyVault := rfl

/-- C8 (amended): for an id not present in the authenticators
collection, `updateAuthenticator` fails with the not-found error and
returns no new state (the store is unchanged), while
`deleteAuthenticator` succeeds as a no-op, also leaving the store
unchanged. -/
theorem updateAuthenticator_deleteAuthenticator_absent (id : String)
    (u : AuthenticatorUpdates) (now : Nat) (st : VaultState)
    (h : ∀ a ∈ st.authenticators, a.id ≠ id) :
    updateAuthenticator id u now st =
      .error ("Authenticator with id " ++ id ++ " not found") ∧
    deleteAuthenticator id st = .ok st := by
  have hid : id ∉ st.authenticators.map (fun a => a.id) := by
    intro hmem
    obtain ⟨a, ha, hae⟩ := List.mem_map.mp hmem
    exact h a ha hae
  have hget : getBy (fun a => a.id) st.authenticators id = none :=
    getBy_eq_none _ _ _ hid
  refine ⟨by simp [updateAuthenticator, hget], ?_⟩
  have hfil : st.authenticators.filter (fun b => !(b.id == id)) =
      st.authenticators :=
    List.filter_eq_self.mpr (fun a ha => by simp [h a ha])
  simp [deleteAuthenticator, deleteBy, hfil]

/-- Witness for C8 (amended) at a singleton store and the absent id
`"zz"`. -/
theorem updateAuthenticator_deleteAuthenticator_absent_witness :
    (∀ a ∈ (setMasterKey "a" 0 emptyVault).authenticators, a.id ≠ "zz") ∧
    (updateAuthenticator "zz" {} 3 (setMasterKey "a" 0 emptyVault) =
       .error ("Authenticator with id " ++ "zz" ++ " not found") ∧
     deleteAuthenticator "zz" (setMasterKey "a" 0 emptyVault) =
       .ok (setMasterKey "a" 0 emptyVault)) :=
  ⟨by simp [setMasterKey, emptyVault],
   updateAuthenticator_deleteAuthenticator_absent "zz" {} 3 _
     (by simp [setMasterKey, emptyVault])⟩

/- ---------------------------------------------------------------- -/
/- C9: validateDecryptedData                                         -/
/- ---------------------------------------------------------------- -/

/-- A payload whose single authenticator has empty-string `id`, `name`
and `secret`, with all three collection arrays present. -/
def c9Payload : JValue :=
  .jobj [("authenticators",
            .jarr [.jobj [("id", .jstr ""), ("name", .jstr ""),
                          ("secret", .jstr "")]]),
         ("groups", .jarr []),
         ("emails", .jarr [])]

/-- C9 counterexample: the claim says a payload containing an
authenticator whose `id`, `name` or `secret` is the empty string is
rejected, but `validateDecryptedData` (the variant at crypto.ts lines
101-122) only checks `typeof ... === "string"`, which the empty string
satisfies: the validator accepts this payload. -/
theorem validateDecryptedData_accepts_empty_strings :
    validateDecryptedData c9Payload = true := rfl

/-- C9 (amended): `validateDecryptedData` returns `true` only if
`authenticators`, `groups` and `emails` are present as arrays and
every element of `authenticators` has string-typed `id`, `name` and
`secret` — emptiness is not checked by this variant (the second
variant in the file, embedded as `validateDecryptedData2`, additionally
rejects empty or missing values via truthiness checks). -/
theorem validateDecryptedData_true_only_if (payload : JValue)
    (h : validateDecryptedData payload = true) :
    (payload.get "authenticators").isArray = true ∧
    (payload.get "groups").isArray = true ∧
    (payload.get "emails").isArray = true ∧
    ∀ a ∈ (payload.get "authenticators").elems,
      (a.get "id").typeofString = true ∧
      (a.get "name").typeofString = true ∧
      (a.get "secret").typeofString = true := by
  unfold validateDecryptedData at h
  split at h
  · exact absurd h (by simp)
  · rename_i hcond
    simp only [Bool.or_eq_true, Bool.not_eq_true'] at hcond
    push_neg at hcond
    simp only [Bool.not_eq_false] at hcond
    obtain ⟨⟨⟨⟨_, _⟩, hA⟩, hG⟩, hE⟩ := hcond
    refine ⟨hA, hG, hE, fun a ha => ?_⟩
    have := List.all_eq_true.mp h a ha
    simp only [Bool.and_eq_true] at this
    exact ⟨this.1.1, this.1.2, this.2⟩

/-- A well-formed one-authenticator payload. -/
def c9GoodPayload : JValue :=
  .jobj [("authenticators",
            .jarr [.jobj [("id", .jstr "a"), ("name", .jstr "GitHub"),
                          ("secret", .jstr "JBSWY3DPEHPK3PXP")]]),
         ("groups", .jarr []),
         ("emails", .jarr [])]

/-- Witness for C9 (amended) at a well-formed one-authenticator
payload. -/
theorem validateDecryptedData_true_only_if_witness :
    validateDecryptedData c9GoodPayload = true ∧
    (c9GoodPayload.get "authenticators").isArray = true :=
  ⟨rfl, (validateDecryptedData_true_only_if c9GoodPayload rfl).1⟩

/- ---------------------------------------------------------------- -/
/- C6: group deletion cascade                                        -/
/- ---------------------------------------------------------------- -/

/-- A batch of in-place edits: folding `put` over the records selected
by `p`, each transformed by a key-preserving `f`, rewrites exactly the
selected records in place. -/
theorem foldl_putBy_filter_map {α : Type} (key : α → String)
    (p : α → Bool) (f : α → α) (hf : ∀ a, key (f a) = key a)
    (xs : List α) (hnd : (xs.map key).Nodup) :
    List.foldl (putBy key) xs ((xs.filter p).map f) =
      xs.map (fun x => if p x then f x else x) := by
  classical
  have hmsub : (xs.filter p).Sublist xs := List.filter_sublist _
  have hckeys : ((xs.filter p).map f).map key = (xs.filter p).map key := by
    rw [List.map_map]
    exact List.map_congr_left (fun a _ => hf a)
  have hzsnd : (((xs.filter p).map f).map key).Nodup := by
    rw [hckeys]
    exact hnd.sublist (hmsub.map key)
  have hzsub : ∀ z ∈ (xs.filter p).map f, key z ∈ xs.map key := by
    intro z hz
    obtain ⟨m, hm, rfl⟩ := List.mem_map.mp hz
    rw [hf]
    exact List.mem_map_of_mem key (hmsub.subset hm)
  rw [foldl_putBy_eq key _ xs hnd hzsnd hzsub]
  refine List.map_congr_left (fun x hx => ?_)
  by_cases hp : p x
  · have hxm : x ∈ xs.filter p := List.mem_filter.mpr ⟨hx, hp⟩
    have hfind : ((xs.filter p).map f).find?
        (fun z => key z == key (f x)) = some (f x) := by
      simpa [getBy] using getBy_eq_some_self key ((xs.filter p).map f)
        (f x) hzsnd (List.mem_map_of_mem f hxm)
    rw [hf] at hfind
    simp [hfind, hp]
  · have hnotm : key x ∉ ((xs.filter p).map f).map key := by
      rw [hckeys]
      intro hmem
      obtain ⟨m, hm, hkm⟩ := List.mem_map.mp hmem
      have hmx : m = x := key_unique key xs m x hnd (hmsub.subset hm) hx hkm
      subst hmx
      exact hp (List.of_mem_filter hm)
    have hfind : ((xs.filter p).map f).find?
        (fun z => key z == key x) = none := by
      simpa [getBy] using getBy_eq_none key ((xs.filter p).map f)
        (key x) hnotm
    simp [hfind, hp]

/-- The authenticators after `deleteGroup`: every member of the group
has `groupId` cleared in place, every other record is untouched. -/
theorem deleteGroup_authenticators_eq (gid : String) (st : VaultState)
    (hnd : (st.authenticators.map (fun a => a.id)).Nodup) :
    (deleteGroup gid st).authenticators =
      st.authenticators.map (fun a =>
        if a.groupId == some gid then { a with groupId := none } else a) := by
  have hfold : (deleteGroup gid st).authenticators =
      List.foldl (putBy (fun a => a.id)) st.authenticators
        ((st.authenticators.filter (fun a => a.groupId == some gid)).map
          (fun a => { a with groupId := none })) := by
    simp only [deleteGroup, List.foldl_map]
  rw [hfold]
  exact foldl_putBy_filter_map (fun a => a.id)
    (fun a => a.groupId == some gid)
    (fun a => { a with groupId := none }) (fun a => rfl)
    st.authenticators hnd

/-- C6: for every group `g` present in the store, `deleteGroup g.id`
removes `g` from the groups collection and clears `groupId` on every
authenticator that referenced it, leaving all other authenticators
untouched, so that no authenticator holds a dangling `groupId`.  (The
source runs the cascade and the group delete in one readwrite
transaction over both stores; the embedding returns the complete
post-state, which is exactly the atomically-observed result.) -/
theorem deleteGroup_cascade (g : Group) (st : VaultState)
    (_hg : g ∈ st.groups)
    (hnd : (st.authenticators.map (fun a => a.id)).Nodup) :
    (∀ g' ∈ (deleteGroup g.id st).groups, g'.id ≠ g.id) ∧
    (∀ g' ∈ st.groups, g'.id ≠ g.id → g' ∈ (deleteGroup g.id st).groups) ∧
    (∀ a ∈ st.authenticators, a.groupId = some g.id →
       { a with groupId := none } ∈ (deleteGroup g.id st).authenticators) ∧
    (∀ a ∈ st.authenticators, a.groupId ≠ some g.id →
       a ∈ (deleteGroup g.id st).authenticators) ∧
    (∀ a' ∈ (deleteGroup g.id st).authenticators, a'.groupId ≠ some g.id) := by
  have hauths := deleteGroup_authenticators_eq g.id st hnd
  refine ⟨?_, ?_, ?_, ?_, ?_⟩
  · intro g' hg' he
    have := List.of_mem_filter (p := fun x : Group => !(x.id == g.id)) hg'
    simp [he] at this
  · intro g' hg' hne
    exact List.mem_filter.mpr ⟨hg', by simp [hne]⟩
  · intro a ha hgid
    rw [hauths]
    exact List.mem_map.mpr ⟨a, ha, by simp [hgid]⟩
  · intro a ha hne
    rw [hauths]
    refine List.mem_map.mpr ⟨a, ha, ?_⟩
    have : (a.groupId == some g.id) = false := by
      simpa using hne
    simp [this]
  · intro a' ha'
    rw [hauths] at ha'
    obtain ⟨x, _, hxe⟩ := List.mem_map.mp ha'
    by_cases hp : x.groupId == some g.id
    · rw [← hxe]
      simp [hp]
    · rw [← hxe]
      simp only [hp, if_false]
      simpa using hp

/-- A group with two member authenticators, for the C6 witness. -/
def c6Group : Group :=
  { id := "g1", name := "G", color := "red", order := 0,
    createdAt := 0, updatedAt := 0 }

/-- The store holding `c6Group` and its two members. -/
def c6Vault : VaultState :=
  { authenticators :=
      [{ id := "x", name := "A", email := none,
         secret := encryptData "s1" "pw" 1 2, groupId := some "g1",
         order := 0, createdAt := 0, updatedAt := 0 },
       { id := "y", name := "B", email := none,
         secret := encryptData "s2" "pw" 3 4, groupId := some "g1",
         order := 1, createdAt := 0, updatedAt := 0 }]
    groups := [c6Group]
    emails := []
    masterKey := none }

/-- Witness for C6: a group with two members; both get their `groupId`
cleared and no dangling reference remains. -/
theorem deleteGroup_cascade_witness :
    (c6Group ∈ c6Vault.groups ∧
     (c6Vault.authenticators.map (fun a => a.id)).Nodup) ∧
    (∀ a ∈ (deleteGroup c6Group.id c6Vault).authenticators,
       a.groupId ≠ some c6Group.id) :=
  ⟨⟨by decide, by decide⟩,
   (deleteGroup_cascade c6Group c6Vault (by decide) (by decide)).2.2.2.2⟩

/- ---------------------------------------------------------------- -/
/- C5: reorder density invariant                                     -/
/- ---------------------------------------------------------------- -/

/-- The reorder loop never changes the list of primary keys. -/
theorem reorderLoop_map_id (auths : List Authenticator)
    (ids : List String) (i : Nat) :
    (reorderLoop auths ids i).map (fun a => a.id) =
      auths.map (fun a => a.id) := by
  induction ids generalizing auths i with
  | nil => rfl
  | cons id rest ih =>
    unfold reorderLoop
    cases hga : getBy (fun a => a.id) auths id with
    | none => simpa [hga] using ih auths (i + 1)
    | some a =>
      have ham : a ∈ auths := List.mem_of_find?_eq_some hga
      have hput : (putBy (fun b => b.id) auths { a with order := i }).map
          (fun b => b.id) = auths.map (fun b => b.id) :=
        putBy_map_key (fun b => b.id) auths { a with order := i }
          (List.mem_map_of_mem (fun b => b.id) ham)
      simp only [hga]
      rw [ih _ (i + 1), hput]

/-- A record whose id is not mentioned in the reorder list is left
untouched by the loop. -/
theorem reorderLoop_mem_of_not_mentioned (auths : List Authenticator)
    (ids : List String) (i : Nat) (x : Authenticator) (hx : x ∈ auths)
    (hni : x.id ∉ ids) : x ∈ reorderLoop auths ids i := by
  induction ids generalizing auths i with
  | nil => exact hx
  | cons id rest ih =>
    have hne : x.id ≠ id := fun h => hni (h ▸ List.mem_cons_self id rest)
    have hnr : x.id ∉ rest := fun h => hni (List.mem_cons_of_mem id h)
    unfold reorderLoop
    cases hga : getBy (fun a => a.id) auths id with
    | none => exact ih auths (i + 1) hx hnr
    | some a =>
      have haid : a.id = id := by
        have := List.find?_some hga
        simpa using this
      refine ih _ (i + 1) ?_ hnr
      exact putBy_mem_of_key_ne (fun b => b.id) auths
        { a with order := i } x hx (by simpa [haid] using hne)

/-- The record named at position `j` of the reorder list ends up stored
with `order = i + j` when the loop starts at index `i`. -/
theorem reorderLoop_mem_at (ids : List String) (auths : List Authenticator)
    (i : Nat) (hnd : (auths.map (fun a => a.id)).Nodup) (hndI : ids.Nodup)
    (j : Nat) (hj : j < ids.length) (a : Authenticator) (ha : a ∈ auths)
    (hid : a.id = ids.get ⟨j, hj⟩) :
    { a with order := i + j } ∈ reorderLoop auths ids i := by
  induction ids generalizing auths i j with
  | nil => exact absurd hj (by simp)
  | cons id rest ih =>
    simp only [List.nodup_cons] at hndI
    cases j with
    | zero =>
      have hid0 : a.id = id := by simpa using hid
      have hget : getBy (fun b => b.id) auths id = some a := by
        simpa [hid0] using getBy_eq_some_self (fun b => b.id) auths a hnd ha
      unfold reorderLoop
      simp only [hget]
      have hmem : { a with order := i } ∈
          putBy (fun b => b.id) auths { a with order := i } :=
        putBy_self_mem (fun b => b.id) auths { a with order := i }
      have hrest : ({ a with order := i } : Authenticator).id ∉ rest := by
        simpa [hid0] using hndI.1
      simpa using reorderLoop_mem_of_not_mentioned _ rest (i + 1)
        { a with order := i } hmem hrest
    | succ j2 =>
      have hj2 : j2 < rest.length := by simpa using hj
      have hid2 : a.id = rest.get ⟨j2, hj2⟩ := by simpa using hid
      have hane : a.id ≠ id := by
        intro he
        apply hndI.1
        have hmem2 : rest.get ⟨j2, hj2⟩ ∈ rest := List.get_mem rest j2 hj2
        rw [← hid2, he] at hmem2
        exact hmem2
      have hstep : i + (j2 + 1) = (i + 1) + j2 := by omega
      rw [hstep]
      unfold reorderLoop
      cases hga : getBy (fun b => b.id) auths id with
      | none => exact ih auths (i + 1) hnd hndI.2 j2 hj2 ha hid2
      | some b =>
        have hbm : b ∈ auths := List.mem_of_find?_eq_some hga
        have hbid : b.id = id := by
          have := List.find?_some hga
          simpa using this
        have hputmap : (putBy (fun c => c.id) auths
            { b with order := i }).map (fun c => c.id) =
            auths.map (fun c => c.id) :=
          putBy_map_key (fun c => c.id) auths { b with order := i }
            (List.mem_map_of_mem (fun c => c.id) hbm)
        refine ih _ (i + 1) (hputmap ▸ hnd) hndI.2 j2 hj2 ?_ hid2
        exact putBy_mem_of_key_ne (fun c => c.id) auths
          { b with order := i } a ha (by simpa [hbid] using hane)

/-- Mapping each element of a duplicate-free list to its index yields
`0, 1, ..., n-1`. -/
theorem map_indexOf_self (ids : List String) (hnd : ids.Nodup) :
    ids.map (fun s => ids.indexOf s) = List.range ids.length := by
  refine List.ext_get (by simp) (fun k h1 h2 => ?_)
  simp only [List.get_map, List.get_range]
  exact List.get_indexOf hnd _

/-- C5: if the ordered id list names exactly the records of the store
(a permutation of the stored ids, which are pairwise distinct), then
after `reorderAuthenticators` the stored `order` values are exactly
`{0, ..., N-1}` and the record with id `list[j]` has `order = j`. -/
theorem reorderAuthenticators_density (ids : List String) (st : VaultState)
    (hnd : (st.authenticators.map (fun a => a.id)).Nodup)
    (hperm : ids.Perm (st.authenticators.map (fun a => a.id))) :
    ((reorderAuthenticators ids st).authenticators.map
        (fun a => a.order)).Perm (List.range ids.length) ∧
    (∀ j (hj : j < ids.length),
      ∃ a ∈ (reorderAuthenticators ids st).authenticators,
        a.id = ids.get ⟨j, hj⟩ ∧ a.order = j) := by
  have hndI : ids.Nodup := hperm.nodup_iff.mpr hnd
  have hkeys : ((reorderAuthenticators ids st).authenticators.map
      (fun a => a.id)) = st.authenticators.map (fun a => a.id) :=
    reorderLoop_map_id st.authenticators ids 0
  have hres_nd : ((reorderAuthenticators ids st).authenticators.map
      (fun a => a.id)).Nodup := hkeys ▸ hnd
  have hat : ∀ j (hj : j < ids.length),
      ∃ a ∈ st.authenticators, a.id = ids.get ⟨j, hj⟩ ∧
        { a with order := j } ∈
          (reorderAuthenticators ids st).authenticators := by
    intro j hj
    have hidm : ids.get ⟨j, hj⟩ ∈ st.authenticators.map (fun a => a.id) :=
      hperm.mem_iff.mp (List.get_mem ids j hj)
    obtain ⟨a, ha, haid⟩ := List.mem_map.mp hidm
    have := reorderLoop_mem_at ids st.authenticators 0 hnd hndI j hj a ha haid
    exact ⟨a, ha, haid, by simpa using this⟩
  refine ⟨?_, fun j hj => ?_⟩
  · have horder : ∀ r ∈ (reorderAuthenticators ids st).authenticators,
        r.order = ids.indexOf r.id := by
      intro r hr
      have hrid : r.id ∈ ids := by
        refine hperm.mem_iff.mpr ?_
        rw [← hkeys]
        exact List.mem_map_of_mem (fun a => a.id) hr
      have hjlt : ids.indexOf r.id < ids.length :=
        List.indexOf_lt_length.mpr hrid
      have hgetidx : ids.get ⟨ids.indexOf r.id, hjlt⟩ = r.id :=
        List.indexOf_get hjlt
      obtain ⟨a, _, haid, hmem⟩ := hat (ids.indexOf r.id) hjlt
      have hkeq : r.id = ({ a with order := ids.indexOf r.id } :
          Authenticator).id := by
        simp [haid, hgetidx]
      have hru := key_unique (fun x => x.id)
        (reorderAuthenticators ids st).authenticators r
        { a with order := ids.indexOf r.id } hres_nd hr hmem hkeq
      conv_lhs => rw [hru]
    have he1 : (reorderAuthenticators ids st).authenticators.map
        (fun a => a.order) =
        (reorderAuthenticators ids st).authenticators.map
          (fun a => ids.indexOf a.id) := List.map_congr_left horder
    have he2 : (reorderAuthenticators ids st).authenticators.map
        (fun a => ids.indexOf a.id) =
        ((reorderAuthenticators ids st).authenticators.map
          (fun a => a.id)).map (fun s => ids.indexOf s) := by
      rw [List.map_map]
      rfl
    rw [he1, he2, hkeys, ← map_indexOf_self ids hndI]
    exact (hperm.map (fun s => ids.indexOf s)).symm
  · obtain ⟨a, _, haid, hmem⟩ := hat j hj
    refine ⟨{ a with order := j }, hmem, ?_, rfl⟩
    simpa using haid

/-- A three-record store for the C5 witness. -/
def c5Vault : VaultState :=
  { authenticators :=
      [{ id := "x", name := "A", email := none,
         secret := encryptData "s1" "pw" 1 2, groupId := none,
         order := 2, createdAt := 0, updatedAt := 0 },
       { id := "y", name := "B", email := none,
         secret := encryptData "s2" "pw" 3 4, groupId := none,
         order := 0, createdAt := 0, updatedAt := 0 },
       { id := "z", name := "C", email := none,
         secret := encryptData "s3" "pw" 5 6, groupId := none,
         order := 1, createdAt := 0, updatedAt := 0 }]
    groups := [], emails := [], masterKey := none }

/-- Witness for C5 on a three-record store reordered to
`["y", "z", "x"]`. -/
theorem reorderAuthenticators_density_witness :
    ((c5Vault.authenticators.map (fun a => a.id)).Nodup ∧
     (["y", "z", "x"] : List String).Perm
       (c5Vault.authenticators.map (fun a => a.id))) ∧
    ((reorderAuthenticators ["y", "z", "x"] c5Vault).authenticators.map
        (fun a => a.order)).Perm
      (List.range (["y", "z", "x"] : List String).length) :=
  ⟨⟨by decide, by decide⟩,
   (reorderAuthenticators_density ["y", "z", "x"] c5Vault
     (by decide) (by decide)).1⟩

/- ---------------------------------------------------------------- -/
/- C7: exportData                                                    -/
/- ---------------------------------------------------------------- -/

/-- The stored (encrypted) address of the C7 failing input. -/
def c7Blob : EncryptedBlob := encryptData "alice@example.com" "pw" 1 2

/-- A vault holding one Email record encrypted under `"pw"`. -/
def c7Vault : VaultState :=
  { authenticators := [], groups := []
    emails := [{ id := "e1", address := c7Blob, createdAt := 0 }]
    masterKey := none }

/-- C7 failing input, evaluated: `exportData` decrypts every
authenticator's `secret`/`email` but passes the `emails` collection
through **unchanged**, so the exported Email record still carries the
ciphertext blob `c7Blob` — even though that blob decrypts fine under
the supplied password (second conjunct).  The spec (and the import
path, which re-encrypts `address` on merge) requires the address to be
exported as plaintext; the source slips here. -/
theorem exportData_email_address_not_decrypted :
    exportData "pw" 5 c7Vault =
      .ok { authenticators := [], groups := []
            emails := [{ id := "e1", address := c7Blob, createdAt := 0 }]
            exportDate := 5 } ∧
    decryptData c7Blob "pw" = .ok "alice@example.com" :=
  ⟨rfl, rfl⟩

/- ---------------------------------------------------------------- -/
/- C4: merge of imported data                                        -/
/- ---------------------------------------------------------------- -/

/-- Round-trip helper shared by the rotation and merge proofs. -/
theorem decryptData_encryptData_ok (p pw : String) (salt iv : Nat) :
    decryptData (encryptData p pw salt iv) pw = .ok p := by
  simp [decryptData, encryptData, gcmDecrypt, deriveKey]

/-- The records the authenticator merge loop appends: the incoming
records whose id is not in the snapshot, re-encrypted. -/
def encryptNewAuths (password : String) (rnd : Nat → Rand × Rand)
    (existingIds : List String) (i : Nat) :
    List PlainAuthenticator → List Authenticator
  | [] => []
  | p :: rest =>
    if existingIds.contains p.id then
      encryptNewAuths password rnd existingIds (i + 1) rest
    else
      encryptPlainAuthenticator password (rnd i) p ::
        encryptNewAuths password rnd existingIds (i + 1) rest

/-- The records the email merge loop appends. -/
def encryptNewEmails (password : String) (rnd : Nat → Rand)
    (existingIds : List String) (i : Nat) : List PlainEmail → List Email
  | [] => []
  | e :: rest =>
    if existingIds.contains e.id then
      encryptNewEmails password rnd existingIds (i + 1) rest
    else
      { id := e.id
        address := encryptData e.address password (rnd i).salt (rnd i).iv
        createdAt := e.createdAt } ::
        encryptNewEmails password rnd existingIds (i + 1) rest

theorem mergeAuthLoop_ok (password : String) (rnd : Nat → Rand × Rand)
    (existingIds : List String) (incoming : List PlainAuthenticator)
    (i : Nat) (store : List Authenticator)
    (hnd : (incoming.map (fun p => p.id)).Nodup)
    (hdisj : ∀ p ∈ incoming, ¬ existingIds.contains p.id →
      p.id ∉ store.map (fun a => a.id)) :
    mergeAuthLoop password rnd existingIds i store incoming =
      .ok (store ++ encryptNewAuths password rnd existingIds i incoming) := by
  induction incoming generalizing store i with
  | nil => simp [mergeAuthLoop, encryptNewAuths]
  | cons p rest ih =>
    simp only [List.map_cons, List.nodup_cons] at hnd
    by_cases hc : existingIds.contains p.id
    · rw [mergeAuthLoop, encryptNewAuths]
      simp only [hc, if_true]
      exact ih (i + 1) store hnd.2
        (fun q hq hqc => hdisj q (List.mem_cons_of_mem p hq) hqc)
    · have hpid : p.id ∉ store.map (fun a => a.id) :=
        hdisj p (List.mem_cons_self p rest) hc
      have hany : store.any
          (fun b => b.id == (encryptPlainAuthenticator password (rnd i) p).id)
            = false := by
        rw [Bool.eq_false_iff]
        intro hx
        obtain ⟨b, hb, hbe⟩ := List.any_eq_true.mp hx
        have hbe2 : b.id = p.id := eq_of_beq hbe
        exact hpid (hbe2 ▸ List.mem_map_of_mem (fun a => a.id) hb)
      have hdisj2 : ∀ q ∈ rest, ¬ existingIds.contains q.id →
          q.id ∉ (store ++
            [encryptPlainAuthenticator password (rnd i) p]).map
              (fun a => a.id) := by
        intro q hq hqc
        simp only [List.map_append, List.mem_append]
        rintro (hin | hin)
        · exact hdisj q (List.mem_cons_of_mem p hq) hqc hin
        · simp only [List.map_cons, List.map_nil, List.mem_cons,
            List.not_mem_nil, or_false] at hin
          have hin2 : q.id = p.id := hin
          exact hnd.1 (hin2 ▸ List.mem_map_of_mem (fun x => x.id) hq)
      rw [mergeAuthLoop, encryptNewAuths]
      simp only [hc, if_false, addBy, hany, Bool.false_eq_true]
      rw [ih (i + 1) (store ++ [encryptPlainAuthenticator password (rnd i) p])
        hnd.2 hdisj2, List.append_assoc]
      rfl

theorem mergeGroupLoop_ok (existingIds : List String)
    (incoming : List Group) (store : List Group)
    (hnd : (incoming.map (fun g => g.id)).Nodup)
    (hdisj : ∀ g ∈ incoming, ¬ existingIds.contains g.id →
      g.id ∉ store.map (fun x => x.id)) :
    mergeGroupLoop existingIds store incoming =
      .ok (store ++
        incoming.filter (fun g => !existingIds.contains g.id)) := by
  induction incoming generalizing store with
  | nil => simp [mergeGroupLoop]
  | cons g rest ih =>
    simp only [List.map_cons, List.nodup_cons] at hnd
    by_cases hc : existingIds.contains g.id
    · rw [mergeGroupLoop]
      simp only [hc, if_true, List.filter_cons, Bool.not_true]
      rw [if_neg (by simp)]
      exact ih store hnd.2
        (fun q hq hqc => hdisj q (List.mem_cons_of_mem g hq) hqc)
    · have hgid : g.id ∉ store.map (fun x => x.id) :=
        hdisj g (List.mem_cons_self g rest) hc
      have hany : store.any (fun b => b.id == g.id) = false := by
        rw [Bool.eq_false_iff]
        intro hx
        obtain ⟨b, hb, hbe⟩ := List.any_eq_true.mp hx
        have hbe2 : b.id = g.id := eq_of_beq hbe
        exact hgid (hbe2 ▸ List.mem_map_of_mem (fun x => x.id) hb)
      have hdisj2 : ∀ q ∈ rest, ¬ existingIds.contains q.id →
          q.id ∉ (store ++ [g]).map (fun x => x.id) := by
        intro q hq hqc
        simp only [List.map_append, List.mem_append]
        rintro (hin | hin)
        · exact hdisj q (List.mem_cons_of_mem g hq) hqc hin
        · simp only [List.map_cons, List.map_nil, List.mem_cons,
            List.not_mem_nil, or_false] at hin
          exact hnd.1 (hin ▸ List.mem_map_of_mem (fun x => x.id) hq)
      rw [mergeGroupLoop]
      simp only [hc, if_false, addBy, hany, Bool.false_eq_true]
      rw [ih (store ++ [g]) hnd.2 hdisj2, List.append_assoc,
        List.filter_cons]
      rw [if_pos (by simpa using hc)]
      rfl

theorem mergeEmailLoop_ok (password : String) (rnd : Nat → Rand)
    (existingIds : List String) (incoming : List PlainEmail)
    (i : Nat) (store : List Email)
    (hnd : (incoming.map (fun e => e.id)).Nodup)
    (hdisj : ∀ e ∈ incoming, ¬ existingIds.contains e.id →
      e.id ∉ store.map (fun x => x.id)) :
    mergeEmailLoop password rnd existingIds i store incoming =
      .ok (store ++ encryptNewEmails password rnd existingIds i incoming) := by
  induction incoming generalizing store i with
  | nil => simp [mergeEmailLoop, encryptNewEmails]
  | cons e rest ih =>
    simp only [List.map_cons, List.nodup_cons] at hnd
    by_cases hc : existingIds.contains e.id
    · rw [mergeEmailLoop, encryptNewEmails]
      simp only [hc, if_true]
      exact ih (i + 1) store hnd.2
        (fun q hq hqc => hdisj q (List.mem_cons_of_mem e hq) hqc)
    · have heid : e.id ∉ store.map (fun x => x.id) :=
        hdisj e (List.mem_cons_self e rest) hc
      have hany : store.any (fun b => b.id ==
          ({ id := e.id
             address := encryptData e.address password (rnd i).salt (rnd i).iv
             createdAt := e.createdAt } : Email).id) = false := by
        rw [Bool.eq_false_iff]
        intro hx
        obtain ⟨b, hb, hbe⟩ := List.any_eq_true.mp hx
        have hbe2 : b.id = e.id := eq_of_beq hbe
        exact heid (hbe2 ▸ List.mem_map_of_mem (fun x => x.id) hb)
      have hdisj2 : ∀ q ∈ rest, ¬ existingIds.contains q.id →
          q.id ∉ (store ++
            [({ id := e.id
                address := encryptData e.address password
                  (rnd i).salt (rnd i).iv
                createdAt := e.createdAt } : Email)]).map
              (fun x => x.id) := by
        intro q hq hqc
        simp only [List.map_append, List.mem_append]
        rintro (hin | hin)
        · exact hdisj q (List.mem_cons_of_mem e hq) hqc hin
        · simp only [List.map_cons, List.map_nil, List.mem_cons,
            List.not_mem_nil, or_false] at hin
          have hin2 : q.id = e.id := hin
          exact hnd.1 (hin2 ▸ List.mem_map_of_mem (fun x => x.id) hq)
      rw [mergeEmailLoop, encryptNewEmails]
      simp only [hc, if_false, addBy, hany, Bool.false_eq_true]
      rw [ih (i + 1) (store ++
        [({ id := e.id
            address := encryptData e.address password
              (rnd i).salt (rnd i).iv
            createdAt := e.createdAt } : Email)]) hnd.2 hdisj2,
        List.append_assoc]
      rfl

theorem mergeAuthLoop_skip_all (password : String) (rnd : Nat → Rand × Rand)
    (existingIds : List String) (incoming : List PlainAuthenticator)
    (i : Nat) (store : List Authenticator)
    (h : ∀ p ∈ incoming, existingIds.contains p.id) :
    mergeAuthLoop password rnd existingIds i store incoming = .ok store := by
  induction incoming generalizing i with
  | nil => rfl
  | cons p rest ih =>
    rw [mergeAuthLoop]
    simp only [h p (List.mem_cons_self p rest), if_true]
    exact ih (i + 1) (fun q hq => h q (List.mem_cons_of_mem p hq))

theorem mergeGroupLoop_skip_all (existingIds : List String)
    (incoming : List Group) (store : List Group)
    (h : ∀ g ∈ incoming, existingIds.contains g.id) :
    mergeGroupLoop existingIds store incoming = .ok store := by
  induction incoming with
  | nil => rfl
  | cons g rest ih =>
    rw [mergeGroupLoop]
    simp only [h g (List.mem_cons_self g rest), if_true]
    exact ih (fun q hq => h q (List.mem_cons_of_mem g hq))

theorem mergeEmailLoop_skip_all (password : String) (rnd : Nat → Rand)
    (existingIds : List String) (incoming : List PlainEmail)
    (i : Nat) (store : List Email)
    (h : ∀ e ∈ incoming, existingIds.contains e.id) :
    mergeEmailLoop password rnd existingIds i store incoming = .ok store := by
  induction incoming generalizing i with
  | nil => rfl
  | cons e rest ih =>
    rw [mergeEmailLoop]
    simp only [h e (List.mem_cons_self e rest), if_true]
    exact ih (i + 1) (fun q hq => h q (List.mem_cons_of_mem e hq))

theorem encryptNewAuths_map_id (password : String) (rnd : Nat → Rand × Rand)
    (existingIds : List String) (i : Nat) (l : List PlainAuthenticator) :
    (encryptNewAuths password rnd existingIds i l).map (fun a => a.id) =
      (l.map (fun p => p.id)).filter
        (fun s => !existingIds.contains s) := by
  induction l generalizing i with
  | nil => rfl
  | cons p rest ih =>
    rw [encryptNewAuths]
    by_cases hc : p.id ∈ existingIds
    · simp [hc, ih (i + 1)]
    · simp [hc, ih (i + 1), encryptPlainAuthenticator]

theorem encryptNewEmails_map_id (password : String) (rnd : Nat → Rand)
    (existingIds : List String) (i : Nat) (l : List PlainEmail) :
    (encryptNewEmails password rnd existingIds i l).map (fun e => e.id) =
      (l.map (fun p => p.id)).filter
        (fun s => !existingIds.contains s) := by
  induction l generalizing i with
  | nil => rfl
  | cons e rest ih =>
    rw [encryptNewEmails]
    by_cases hc : e.id ∈ existingIds
    · simp [hc, ih (i + 1)]
    · simp [hc, ih (i + 1)]

theorem encryptNewAuths_mem (password : String) (rnd : Nat → Rand × Rand)
    (existingIds : List String) (i : Nat) (l : List PlainAuthenticator)
    (q : Authenticator)
    (hq : q ∈ encryptNewAuths password rnd existingIds i l) :
    ∃ p ∈ l, ∃ j, q = encryptPlainAuthenticator password (rnd j) p := by
  induction l generalizing i with
  | nil => cases hq
  | cons p rest ih =>
    rw [encryptNewAuths] at hq
    by_cases hc : existingIds.contains p.id
    · rw [if_pos hc] at hq
      obtain ⟨p2, hp2, hj⟩ := ih (i + 1) hq
      exact ⟨p2, List.mem_cons_of_mem p hp2, hj⟩
    · rw [if_neg hc] at hq
      rcases List.mem_cons.mp hq with rfl | hq2
      · exact ⟨p, List.mem_cons_self p rest, i, rfl⟩
      · obtain ⟨p2, hp2, hj⟩ := ih (i + 1) hq2
        exact ⟨p2, List.mem_cons_of_mem p hp2, hj⟩

theorem encryptNewEmails_mem (password : String) (rnd : Nat → Rand)
    (existingIds : List String) (i : Nat) (l : List PlainEmail) (q : Email)
    (hq : q ∈ encryptNewEmails password rnd existingIds i l) :
    ∃ p ∈ l, ∃ j, q =
      { id := p.id
        address := encryptData p.address password (rnd j).salt (rnd j).iv
        createdAt := p.createdAt } := by
  induction l generalizing i with
  | nil => cases hq
  | cons e rest ih =>
    rw [encryptNewEmails] at hq
    by_cases hc : existingIds.contains e.id
    · rw [if_pos hc] at hq
      obtain ⟨p2, hp2, hj⟩ := ih (i + 1) hq
      exact ⟨p2, List.mem_cons_of_mem e hp2, hj⟩
    · rw [if_neg hc] at hq
      rcases List.mem_cons.mp hq with rfl | hq2
      · exact ⟨e, List.mem_cons_self e rest, i, rfl⟩
      · obtain ⟨p2, hp2, hj⟩ := ih (i + 1) hq2
        exact ⟨p2, List.mem_cons_of_mem e hp2, hj⟩

/-- A payload whose authenticator list repeats the id `"x"`. -/
def c4DupPayload : ImportedPayload :=
  { authenticators :=
      [{ id := "x", name := "A", email := none, secret := "s",
         groupId := none, order := 0, createdAt := 0, updatedAt := 0 },
       { id := "x", name := "B", email := none, secret := "t",
         groupId := none, order := 1, createdAt := 0, updatedAt := 0 }]
    groups := [], emails := [] }

/-- C4 counterexample: the claim promises that `mergeImportedData`
inserts exactly the incoming records whose id is absent from the target
collection — on the empty store that would be an insertion — but a
payload that repeats an id makes the second IndexedDB `add` throw a
ConstraintError (the skip check consults only the pre-merge key
snapshot), so the call fails wholesale instead. -/
theorem mergeImportedData_duplicate_id_fails :
    mergeImportedData "pw"
      (fun j => ({ salt := 2 * j, iv := 2 * j + 1 },
                 { salt := 3 * j, iv := 3 * j + 1 }))
      (fun j => { salt := 5 * j, iv := 5 * j + 1 })
      c4DupPayload emptyVault = .error "ConstraintError" := rfl

/-- C4 (amended): for payloads whose per-collection ids are pairwise
distinct, `mergeImportedData` succeeds and (a) keeps every existing
record verbatim, appending exactly the incoming records whose id is not
already present, re-encrypted with the current session password (their
sensitive fields decrypt back to the imported plaintexts), (b) stores
incoming groups as-is, and (c) is idempotent: a second import of the
same payload (under any fresh randomness) returns the state unchanged.
Payloads with duplicate ids inside one collection instead fail on the
IndexedDB `add` (see the counterexample). -/
theorem mergeImportedData_spec (password : String)
    (authRnd : Nat → Rand × Rand) (emailRnd : Nat → Rand)
    (payload : ImportedPayload) (st : VaultState)
    (hA : (payload.authenticators.map (fun p => p.id)).Nodup)
    (hG : (payload.groups.map (fun g => g.id)).Nodup)
    (hE : (payload.emails.map (fun e => e.id)).Nodup) :
    ∃ st', mergeImportedData password authRnd emailRnd payload st = .ok st' ∧
      (∃ newA, st'.authenticators = st.authenticators ++ newA ∧
        newA.map (fun a => a.id) =
          (payload.authenticators.map (fun p => p.id)).filter
            (fun s => !(st.authenticators.map (fun a => a.id)).contains s) ∧
        ∀ q ∈ newA, ∃ p ∈ payload.authenticators, q.id = p.id ∧
          decryptData q.secret password = .ok p.secret ∧
          ((p.email = none ∧ q.email = none) ∨
            (∃ e eb, p.email = some e ∧ q.email = some eb ∧
              decryptData eb password = .ok e))) ∧
      st'.groups = st.groups ++
        payload.groups.filter
          (fun g => !(st.groups.map (fun x => x.id)).contains g.id) ∧
      (∃ newE, st'.emails = st.emails ++ newE ∧
        newE.map (fun e => e.id) =
          (payload.emails.map (fun p => p.id)).filter
            (fun s => !(st.emails.map (fun x => x.id)).contains s) ∧
        ∀ q ∈ newE, ∃ p ∈ payload.emails, q.id = p.id ∧
          decryptData q.address password = .ok p.address ∧
          q.createdAt = p.createdAt) ∧
      st'.masterKey = st.masterKey ∧
      (∀ (authRnd2 : Nat → Rand × Rand) (emailRnd2 : Nat → Rand),
        mergeImportedData password authRnd2 emailRnd2 payload st' =
          .ok st') := by
  have hdisjA : ∀ p ∈ payload.authenticators,
      ¬ (st.authenticators.map (fun a => a.id)).contains p.id →
      p.id ∉ st.authenticators.map (fun a => a.id) :=
    fun p _ hpc hmem => hpc (List.elem_iff.mpr hmem)
  have hdisjG : ∀ g ∈ payload.groups,
      ¬ (st.groups.map (fun x => x.id)).contains g.id →
      g.id ∉ st.groups.map (fun x => x.id) :=
    fun g _ hgc hmem => hgc (List.elem_iff.mpr hmem)
  have hdisjE : ∀ e ∈ payload.emails,
      ¬ (st.emails.map (fun x => x.id)).contains e.id →
      e.id ∉ st.emails.map (fun x => x.id) :=
    fun e _ hec hmem => hec (List.elem_iff.mpr hmem)
  have hAloop := mergeAuthLoop_ok password authRnd
    (st.authenticators.map (fun a => a.id)) payload.authenticators 0
    st.authenticators hA hdisjA
  have hGloop := mergeGroupLoop_ok (st.groups.map (fun x => x.id))
    payload.groups st.groups hG hdisjG
  have hEloop := mergeEmailLoop_ok password emailRnd
    (st.emails.map (fun x => x.id)) payload.emails 0 st.emails hE hdisjE
  refine ⟨{ st with
            authenticators := st.authenticators ++
              encryptNewAuths password authRnd
                (st.authenticators.map (fun a => a.id)) 0
                payload.authenticators
            groups := st.groups ++
              payload.groups.filter
                (fun g => !(st.groups.map (fun x => x.id)).contains g.id)
            emails := st.emails ++
              encryptNewEmails password emailRnd
                (st.emails.map (fun x => x.id)) 0 payload.emails },
    ?_, ?_, rfl, ?_, rfl, ?_⟩
  · simp only [mergeImportedData, hAloop, hGloop, hEloop, bind, Except.bind,
      pure, Except.pure]
  · refine ⟨encryptNewAuths password authRnd
      (st.authenticators.map (fun a => a.id)) 0 payload.authenticators,
      rfl, encryptNewAuths_map_id .., fun q hq => ?_⟩
    obtain ⟨p, hp, j, rfl⟩ := encryptNewAuths_mem password authRnd
      (st.authenticators.map (fun a => a.id)) 0 payload.authenticators q hq
    refine ⟨p, hp, rfl, ?_, ?_⟩
    · exact decryptData_encryptData_ok p.secret password
        (authRnd j).1.salt (authRnd j).1.iv
    · cases hpe : p.email with
      | none => exact Or.inl ⟨rfl, by simp [encryptPlainAuthenticator, hpe]⟩
      | some e =>
        refine Or.inr ⟨e, encryptData e password
          (authRnd j).2.salt (authRnd j).2.iv, rfl, ?_, ?_⟩
        · simp [encryptPlainAuthenticator, hpe]
        · exact decryptData_encryptData_ok e password
            (authRnd j).2.salt (authRnd j).2.iv
  · refine ⟨encryptNewEmails password emailRnd
      (st.emails.map (fun x => x.id)) 0 payload.emails,
      rfl, encryptNewEmails_map_id .., fun q hq => ?_⟩
    obtain ⟨p, hp, j, rfl⟩ := encryptNewEmails_mem password emailRnd
      (st.emails.map (fun x => x.id)) 0 payload.emails q hq
    exact ⟨p, hp, rfl,
      decryptData_encryptData_ok p.address password
        (emailRnd j).salt (emailRnd j).iv, rfl⟩
  · intro authRnd2 emailRnd2
    have hallA : ∀ p ∈ payload.authenticators,
        ((st.authenticators ++
          encryptNewAuths password authRnd
            (st.authenticators.map (fun a => a.id)) 0
            payload.authenticators).map (fun a => a.id)).contains p.id := by
      intro p hp
      refine List.elem_iff.mpr ?_
      rw [List.map_append, List.mem_append,
        encryptNewAuths_map_id password authRnd
          (st.authenticators.map (fun a => a.id)) 0 payload.authenticators]
      by_cases hpm : p.id ∈ st.authenticators.map (fun a => a.id)
      · exact Or.inl hpm
      · refine Or.inr (List.mem_filter.mpr
          ⟨List.mem_map_of_mem (fun x => x.id) hp, ?_⟩)
        simp only [Bool.not_eq_true']
        rw [Bool.eq_false_iff]
        exact fun hc => hpm (List.elem_iff.mp hc)
    have hallG : ∀ g ∈ payload.groups,
        ((st.groups ++ payload.groups.filter
          (fun x => !(st.groups.map (fun y => y.id)).contains x.id)).map
            (fun x => x.id)).contains g.id := by
      intro g hg
      refine List.elem_iff.mpr ?_
      rw [List.map_append, List.mem_append]
      by_cases hgm : g.id ∈ st.groups.map (fun x => x.id)
      · exact Or.inl hgm
      · refine Or.inr (List.mem_map_of_mem (fun x => x.id)
          (List.mem_filter.mpr ⟨hg, ?_⟩))
        simp only [Bool.not_eq_true']
        rw [Bool.eq_false_iff]
        exact fun hc => hgm (List.elem_iff.mp hc)
    have hallE : ∀ e ∈ payload.emails,
        ((st.emails ++
          encryptNewEmails password emailRnd
            (st.emails.map (fun x => x.id)) 0 payload.emails).map
              (fun x => x.id)).contains e.id := by
      intro e he
      refine List.elem_iff.mpr ?_
      rw [List.map_append, List.mem_append,
        encryptNewEmails_map_id password emailRnd
          (st.emails.map (fun x => x.id)) 0 payload.emails]
      by_cases hem : e.id ∈ st.emails.map (fun x => x.id)
      · exact Or.inl hem
      · refine Or.inr (List.mem_filter.mpr
          ⟨List.mem_map_of_mem (fun x => x.id) he, ?_⟩)
        simp only [Bool.not_eq_true']
        rw [Bool.eq_false_iff]
        exact fun hc => hem (List.elem_iff.mp hc)
    have hA2 := mergeAuthLoop_skip_all password authRnd2
      ((st.authenticators ++
        encryptNewAuths password authRnd
          (st.authenticators.map (fun a => a.id)) 0
          payload.authenticators).map (fun a => a.id))
      payload.authenticators 0
      (st.authenticators ++
        encryptNewAuths password authRnd
          (st.authenticators.map (fun a => a.id)) 0
          payload.authenticators) hallA
    have hG2 := mergeGroupLoop_skip_all
      ((st.groups ++ payload.groups.filter
        (fun x => !(st.groups.map (fun y => y.id)).contains x.id)).map
          (fun x => x.id))
      payload.groups
      (st.groups ++ payload.groups.filter
        (fun x => !(st.groups.map (fun y => y.id)).contains x.id)) hallG
    have hE2 := mergeEmailLoop_skip_all password emailRnd2
      ((st.emails ++
        encryptNewEmails password emailRnd
          (st.emails.map (fun x => x.id)) 0 payload.emails).map
            (fun x => x.id))
      payload.emails 0
      (st.emails ++
        encryptNewEmails password emailRnd
          (st.emails.map (fun x => x.id)) 0 payload.emails) hallE
    simp only [mergeImportedData, hA2, hG2, hE2, bind, Except.bind,
      pure, Except.pure]

/-- A one-record target store plus a payload with one new record per
collection, for the C4 witness. -/
def c4Vault : VaultState :=
  { authenticators :=
      [{ id := "o", name := "Old", email := none,
         secret := encryptData "os" "pw" 1 2, groupId := none,
         order := 0, createdAt := 0, updatedAt := 0 }]
    groups := [], emails := [], masterKey := none }

/-- The imported payload of the C4 witness. -/
def c4Payload : ImportedPayload :=
  { authenticators :=
      [{ id := "n", name := "New", email := some "who@example.com",
         secret := "sec", groupId := none, order := 0,
         createdAt := 1, updatedAt := 1 }]
    groups := [{ id := "g", name := "G", color := "blue", order := 0,
                 createdAt := 1, updatedAt := 1 }]
    emails := [{ id := "m", address := "a@example.com", createdAt := 1 }] }

/-- Randomness for the C4 witness. -/
def c4AuthRnd : Nat → Rand × Rand :=
  fun j => ({ salt := 10 + j, iv := 11 + j }, { salt := 20 + j, iv := 21 + j })

/-- Randomness for the C4 witness (emails). -/
def c4EmailRnd : Nat → Rand :=
  fun j => { salt := 30 + j, iv := 31 + j }

/-- Witness for C4 (amended) at a duplicate-free payload. -/
theorem mergeImportedData_spec_witness :
    ((c4Payload.authenticators.map (fun p => p.id)).Nodup ∧
     (c4Payload.groups.map (fun g => g.id)).Nodup ∧
     (c4Payload.emails.map (fun e => e.id)).Nodup) ∧
    ∃ st', mergeImportedData "pw" c4AuthRnd c4EmailRnd c4Payload c4Vault =
      .ok st' :=
  ⟨⟨by decide, by decide, by decide⟩, by
    obtain ⟨st', hok, _⟩ := mergeImportedData_spec "pw" c4AuthRnd c4EmailRnd
      c4Payload c4Vault (by decide) (by decide) (by decide)
    exact ⟨st', hok⟩⟩

/- ---------------------------------------------------------------- -/
/- C2: master key rotation                                           -/
/- ---------------------------------------------------------------- -/

/-- If a key occurs among the stored keys, `get` returns some record
with that key. -/
theorem getBy_mem_of_key_mem {α : Type} (key : α → String) (xs : List α)
    (k : String) (h : k ∈ xs.map key) :
    ∃ z, getBy key xs k = some z ∧ z ∈ xs ∧ key z = k := by
  cases hf : getBy key xs k with
  | none =>
    obtain ⟨b, hb, hkb⟩ := List.mem_map.mp h
    have := List.find?_eq_none.mp hf b hb
    simp [hkb] at this
  | some z =>
    refine ⟨z, rfl, List.mem_of_find?_eq_some hf, ?_⟩
    have := List.find?_some hf
    simpa using this

/-- The authenticator re-encryption loop of `changeMasterKey`: when
every stored blob decrypts under the old password, the loop succeeds
and relates every input record to its re-encrypted image. -/
theorem reencryptAuthLoop_ok (oldPassword newPassword : String)
    (rnd : Nat → Rand × Rand) (i : Nat) (l : List Authenticator)
    (hdec : ∀ a ∈ l, (∃ p, decryptData a.secret oldPassword = .ok p) ∧
      (∀ e, a.email = some e → ∃ q, decryptData e oldPassword = .ok q)) :
    ∃ zs, reencryptAuthLoop oldPassword newPassword rnd i l = .ok zs ∧
      List.Forall₂ (fun a z =>
        z.id = a.id ∧
        (∀ p, decryptData a.secret oldPassword = .ok p →
          ∃ salt iv, z.secret = encryptData p newPassword salt iv) ∧
        (∀ e p, a.email = some e → decryptData e oldPassword = .ok p →
          ∃ salt iv, z.email =
            some (encryptData p newPassword salt iv))) l zs := by
  induction l generalizing i with
  | nil => exact ⟨[], rfl, List.Forall₂.nil⟩
  | cons a rest ih =>
    have hda := hdec a (List.mem_cons_self a rest)
    obtain ⟨p, hp⟩ := hda.1
    obtain ⟨zs, hzs, hrel⟩ :=
      ih (i + 1) (fun b hb => hdec b (List.mem_cons_of_mem a hb))
    cases hae : a.email with
    | none =>
      refine ⟨{ a with
          secret := encryptData p newPassword (rnd i).1.salt (rnd i).1.iv
          email := none } :: zs, ?_, ?_⟩
      · simp only [reencryptAuthLoop, hp, hae, hzs, bind, Except.bind,
          pure, Except.pure]
      · refine List.Forall₂.cons ⟨rfl, ?_, ?_⟩ hrel
        · intro p2 hp2
          rw [hp] at hp2
          cases hp2
          exact ⟨(rnd i).1.salt, (rnd i).1.iv, rfl⟩
        · intro e p2 he _
          rw [hae] at he
          cases he
    | some e =>
      obtain ⟨q, hq⟩ := hda.2 e hae
      refine ⟨{ a with
          secret := encryptData p newPassword (rnd i).1.salt (rnd i).1.iv
          email := some (encryptData q newPassword
            (rnd i).2.salt (rnd i).2.iv) } :: zs, ?_, ?_⟩
      · simp only [reencryptAuthLoop, hp, hae, hq, hzs, bind, Except.bind,
          pure, Except.pure]
      · refine List.Forall₂.cons ⟨rfl, ?_, ?_⟩ hrel
        · intro p2 hp2
          rw [hp] at hp2
          cases hp2
          exact ⟨(rnd i).1.salt, (rnd i).1.iv, rfl⟩
        · intro e2 p2 he2 hq2
          rw [hae] at he2
          cases he2
          rw [hq] at hq2
          cases hq2
          exact ⟨(rnd i).2.salt, (rnd i).2.iv, rfl⟩

/-- The email re-encryption loop of `changeMasterKey`. -/
theorem reencryptEmailLoop_ok (oldPassword newPassword : String)
    (rnd : Nat → Rand) (i : Nat) (l : List Email)
    (hdec : ∀ em ∈ l, ∃ q, decryptData em.address oldPassword = .ok q) :
    ∃ zs, reencryptEmailLoop oldPassword newPassword rnd i l = .ok zs ∧
      List.Forall₂ (fun em z =>
        z.id = em.id ∧
        (∀ p, decryptData em.address oldPassword = .ok p →
          ∃ salt iv, z.address = encryptData p newPassword salt iv)) l zs := by
  induction l generalizing i with
  | nil => exact ⟨[], rfl, List.Forall₂.nil⟩
  | cons em rest ih =>
    obtain ⟨q, hq⟩ := hdec em (List.mem_cons_self em rest)
    obtain ⟨zs, hzs, hrel⟩ :=
      ih (i + 1) (fun b hb => hdec b (List.mem_cons_of_mem em hb))
    refine ⟨{ em with
        address := encryptData q newPassword (rnd i).salt (rnd i).iv } :: zs,
      ?_, ?_⟩
    · simp only [reencryptEmailLoop, hq, hzs, bind, Except.bind,
        pure, Except.pure]
    · refine List.Forall₂.cons ⟨rfl, ?_⟩ hrel
      intro p2 hp2
      rw [hq] at hp2
      cases hp2
      exact ⟨(rnd i).salt, (rnd i).iv, rfl⟩

/-- C2 (amended, `old ≠ new`): `changeMasterKey old new` fails with the
auth error and returns no new state when `verifyMasterKey old` is
false; when it is true and every stored blob decrypts under `old`, it
succeeds, writes the fresh MasterKeyRecord for `new`, and re-encrypts
every authenticator secret/email and email address so that decryption
under `new` yields the original plaintext while decryption under `old`
now fails.  (All writes are modelled as one returned post-state,
matching the single readwrite transaction of the source; the amendment
restricts the `old`-decryption-fails clause to `old ≠ new`, see the
counterexample.) -/
theorem changeMasterKey_spec (oldPassword newPassword : String)
    (authRnd : Nat → Rand × Rand) (emailRnd : Nat → Rand)
    (masterSalt : Nat) (st : VaultState)
    (hndA : (st.authenticators.map (fun a => a.id)).Nodup)
    (hndE : (st.emails.map (fun e => e.id)).Nodup)
    (hne : oldPassword ≠ newPassword) :
    (verifyMasterKey oldPassword st = false →
      changeMasterKey oldPassword newPassword authRnd emailRnd masterSalt
        st = .error "Current password is incorrect") ∧
    (verifyMasterKey oldPassword st = true →
     (∀ a ∈ st.authenticators,
        (∃ p, decryptData a.secret oldPassword = .ok p) ∧
        (∀ e, a.email = some e →
          ∃ q, decryptData e oldPassword = .ok q)) →
     (∀ em ∈ st.emails, ∃ q, decryptData em.address oldPassword = .ok q) →
     ∃ st', changeMasterKey oldPassword newPassword authRnd emailRnd
         masterSalt st = .ok st' ∧
       st'.masterKey = some (MasterKeyRecord.mk "master" masterSalt
         (deriveBits newPassword masterSalt) true) ∧
       (∀ a ∈ st.authenticators, ∃ a' ∈ st'.authenticators,
         a'.id = a.id ∧
         (∀ p, decryptData a.secret oldPassword = .ok p →
           decryptData a'.secret newPassword = .ok p ∧
           decryptData a'.secret oldPassword =
             .error "Decryption failed: invalid password or corrupted data.") ∧
         (∀ e p, a.email = some e → decryptData e oldPassword = .ok p →
           ∃ eb, a'.email = some eb ∧
             decryptData eb newPassword = .ok p ∧
             decryptData eb oldPassword =
               .error "Decryption failed: invalid password or corrupted data.")) ∧
       (∀ em ∈ st.emails, ∃ em' ∈ st'.emails, em'.id = em.id ∧
         (∀ p, decryptData em.address oldPassword = .ok p →
           decryptData em'.address newPassword = .ok p ∧
           decryptData em'.address oldPassword =
             .error "Decryption failed: invalid password or corrupted data."))) := by
  constructor
  · intro hv
    simp [changeMasterKey, hv]
  · intro hv hdecA hdecE
    have hsortedPerm : (getAllAuthenticators st).Perm st.authenticators :=
      List.perm_insertionSort _ _
    have hdecS : ∀ a ∈ getAllAuthenticators st,
        (∃ p, decryptData a.secret oldPassword = .ok p) ∧
        (∀ e, a.email = some e →
          ∃ q, decryptData e oldPassword = .ok q) :=
      fun a ha => hdecA a (hsortedPerm.mem_iff.mp ha)
    obtain ⟨zs, hzs, hrelA⟩ := reencryptAuthLoop_ok oldPassword newPassword
      authRnd 0 (getAllAuthenticators st) hdecS
    obtain ⟨es, hes, hrelE⟩ := reencryptEmailLoop_ok oldPassword newPassword
      emailRnd 0 (getAllEmails st) hdecE
    have hmapA : zs.map (fun z => z.id) =
        (getAllAuthenticators st).map (fun a => a.id) :=
      forall₂_map_key (fun a => a.id) (fun z => z.id) hrelA
        (fun a z hz => hz.1.symm)
    have hpermKA : ((getAllAuthenticators st).map (fun a => a.id)).Perm
        (st.authenticators.map (fun a => a.id)) :=
      hsortedPerm.map (fun a => a.id)
    have hndZ : (zs.map (fun z => z.id)).Nodup := by
      rw [hmapA]
      exact hpermKA.nodup_iff.mpr hndA
    have hsubZ : ∀ z ∈ zs, z.id ∈
        st.authenticators.map (fun a => a.id) := by
      intro z hz
      have hmem : z.id ∈ zs.map (fun w => w.id) :=
        List.mem_map_of_mem (fun w => w.id) hz
      rw [hmapA] at hmem
      exact hpermKA.mem_iff.mp hmem
    have hfoldA := foldl_putBy_eq (fun a => a.id) zs st.authenticators
      hndA hndZ hsubZ
    have hmapE : es.map (fun z => z.id) =
        st.emails.map (fun e => e.id) :=
      forall₂_map_key (fun e => e.id) (fun z => z.id) hrelE
        (fun a z hz => hz.1.symm)
    have hndZE : (es.map (fun z => z.id)).Nodup := by
      rw [hmapE]
      exact hndE
    have hsubZE : ∀ z ∈ es, z.id ∈ st.emails.map (fun e => e.id) := by
      intro z hz
      have hmem : z.id ∈ es.map (fun w => w.id) :=
        List.mem_map_of_mem (fun w => w.id) hz
      rwa [hmapE] at hmem
    have hfoldE := foldl_putBy_eq (fun e => e.id) es st.emails
      hndE hndZE hsubZE
    refine ⟨{ st with
        authenticators :=
          List.foldl (putBy (fun a => a.id)) st.authenticators zs
        emails := List.foldl (putBy (fun e => e.id)) st.emails es
        masterKey := some (MasterKeyRecord.mk "master" masterSalt
          (deriveBits newPassword masterSalt) true) }, ?_, rfl, ?_, ?_⟩
    · simp only [changeMasterKey, hv, Bool.not_true, Bool.false_eq_true,
        if_false, hzs, hes, bind, Except.bind, pure, Except.pure]
    · intro a ha
      have haid : a.id ∈ zs.map (fun z => z.id) := by
        rw [hmapA]
        exact hpermKA.mem_iff.mpr
          (List.mem_map_of_mem (fun x => x.id) ha)
      obtain ⟨z, hfz, hzmem, hzk⟩ :=
        getBy_mem_of_key_mem (fun z => z.id) zs a.id haid
      obtain ⟨s, hsmem, hRs⟩ := forall₂_mem_right hrelA hzmem
      have hs_in : s ∈ st.authenticators := hsortedPerm.mem_iff.mp hsmem
      have hsa : s = a := key_unique (fun x => x.id) st.authenticators
        s a hndA hs_in ha (hRs.1.symm.trans hzk)
      subst hsa
      have hzres : z ∈
          List.foldl (putBy (fun x => x.id)) st.authenticators zs := by
        rw [hfoldA]
        refine List.mem_map.mpr ⟨s, ha, ?_⟩
        simp only [getBy] at hfz
        rw [hfz]
        rfl
      refine ⟨z, hzres, hzk, ?_, ?_⟩
      · intro p hp
        obtain ⟨salt, iv, hzsec⟩ := hRs.2.1 p hp
        rw [hzsec]
        exact ⟨decryptData_encryptData_ok p newPassword salt iv,
          decryptData_wrong_password p newPassword oldPassword salt iv hne⟩
      · intro e p he hp
        obtain ⟨salt, iv, hzem⟩ := hRs.2.2 e p he hp
        refine ⟨encryptData p newPassword salt iv, hzem,
          decryptData_encryptData_ok p newPassword salt iv,
          decryptData_wrong_password p newPassword oldPassword salt iv hne⟩
    · intro em hem
      have heid : em.id ∈ es.map (fun z => z.id) := by
        rw [hmapE]
        exact List.mem_map_of_mem (fun x => x.id) hem
      obtain ⟨z, hfz, hzmem, hzk⟩ :=
        getBy_mem_of_key_mem (fun z => z.id) es em.id heid
      obtain ⟨s, hsmem, hRs⟩ := forall₂_mem_right hrelE hzmem
      have hs_in : s ∈ st.emails := hsmem
      have hsa : s = em := key_unique (fun x => x.id) st.emails
        s em hndE hs_in hem (hRs.1.symm.trans hzk)
      subst hsa
      have hzres : z ∈ List.foldl (putBy (fun x => x.id)) st.emails es := by
        rw [hfoldE]
        refine List.mem_map.mpr ⟨s, hem, ?_⟩
        simp only [getBy] at hfz
        rw [hfz]
        rfl
      refine ⟨z, hzres, hzk, ?_⟩
      intro p hp
      obtain ⟨salt, iv, hzad⟩ := hRs.2 p hp
      rw [hzad]
      exact ⟨decryptData_encryptData_ok p newPassword salt iv,
        decryptData_wrong_password p newPassword oldPassword salt iv hne⟩

/-- A vault with its master key set for `"pw"` and one authenticator
whose secret is encrypted under `"pw"`. -/
def c2Vault : VaultState :=
  { authenticators :=
      [{ id := "a1", name := "A", email := none,
         secret := encryptData "s" "pw" 1 2, groupId := none,
         order := 0, createdAt := 0, updatedAt := 0 }]
    groups := [], emails := []
    masterKey := some (MasterKeyRecord.mk "master" 9 (deriveBits "pw" 9)
      true) }

/-- Rotation randomness for the C2 fixtures. -/
def c2AuthRnd : Nat → Rand × Rand :=
  fun j => ({ salt := 100 + j, iv := 200 + j },
            { salt := 300 + j, iv := 400 + j })

/-- Rotation randomness for the C2 fixtures (emails). -/
def c2EmailRnd : Nat → Rand :=
  fun j => { salt := 500 + j, iv := 600 + j }

/-- The state produced by `changeMasterKey "pw" "pw"` on `c2Vault`. -/
def c2VaultAfter : VaultState :=
  { authenticators :=
      [{ id := "a1", name := "A", email := none,
         secret := encryptData "s" "pw" 100 200, groupId := none,
         order := 0, createdAt := 0, updatedAt := 0 }]
    groups := [], emails := []
    masterKey := some (MasterKeyRecord.mk "master" 7 (deriveBits "pw" 7)
      true) }

/-- C2 counterexample: the claim asserts, for **every** pair of
passwords, that after a successful `changeMasterKey old new` decrypting
a previously-stored secret with `old` fails.  Take `old = new = "pw"`:
the rotation succeeds (first conjunct, the whole call evaluated), and
the re-encrypted stored secret still decrypts fine under the old
password (second conjunct) — it cannot fail, since old and new coincide. -/
theorem changeMasterKey_same_password_old_still_decrypts :
    changeMasterKey "pw" "pw" c2AuthRnd c2EmailRnd 7 c2Vault =
      .ok c2VaultAfter ∧
    decryptData (encryptData "s" "pw" 100 200) "pw" = .ok "s" := by
  constructor
  · rfl
  · rfl

/-- Witness for C2 (amended) rotating `c2Vault` from `"pw"` to
`"pw2"`. -/
theorem changeMasterKey_spec_witness :
    (("pw" : String) ≠ "pw2" ∧
     (c2Vault.authenticators.map (fun a => a.id)).Nodup ∧
     (c2Vault.emails.map (fun e => e.id)).Nodup ∧
     verifyMasterKey "pw" c2Vault = true) ∧
    ∃ st', changeMasterKey "pw" "pw2" c2AuthRnd c2EmailRnd 7 c2Vault =
        .ok st' ∧
      st'.masterKey = some (MasterKeyRecord.mk "master" 7
        (deriveBits "pw2" 7) true) :=
  ⟨⟨by decide, by decide, by decide, by decide⟩, by
    obtain ⟨st', hok, hmk, _⟩ :=
      (changeMasterKey_spec "pw" "pw2" c2AuthRnd c2EmailRnd 7 c2Vault
        (by decide) (by decide) (by decide)).2 (by decide)
        (fun a ha => by
          obtain rfl := List.mem_singleton.mp ha
          exact ⟨⟨"s", rfl⟩, fun e he => by simp at he⟩)
        (fun em hem => absurd hem (List.not_mem_nil em))
    exact ⟨st', hok, hmk⟩⟩

end Vaultic
